import Mathlib

/-!
Verification of the lexical analyzer of the compiler-construction repository.

The repository holds two Rust variants of the same scanner:

* `src/compiler/src/lexer.rs` — tracks line numbers; the operator characters
  are `+ - * / = ! < >`, with a one-character lookahead for a trailing `=`
  that forms a two-character compound operator;
* `src/lexer.rs` — no line tracking; the operator characters are `+ - * / = !`
  and operator tokens are always a single character.

The embedding follows the Rust code closely.  In Rust, `self.input` is a
UTF-8 `String`; `self.position` is incremented once per *character*, but the
loop guard compares it against `self.input.len()` — the *byte* length — and
the lexeme slices `self.input[start..self.position]` index *bytes*.  For
ASCII input, character index and byte index coincide.  For non-ASCII input,
`self.input.chars().nth(self.position).unwrap()` panics once the characters
run out while `position` is still below the byte length, and a byte slice can
fall on a non-boundary.  We therefore model the input as its list of
characters together with its UTF-8 byte length (`utf8Len`), character access
by `getElem?`, byte slices by explicit byte-walking functions, and every
panic by `Option.none`.

`tokenizeAux` is the faithful translation of the `tokenize` loop (the cursor
and line counter of the mutable `self` become explicit arguments and
results).  `tokenizeFuel` is the same function with an explicit structural
fuel parameter; `tokenizeFuel_eq` proves the two agree whenever the fuel
exceeds the number of remaining bytes, and all concrete evaluations and
inductive proofs go through the fuel presentation.
-/

/-- `enum TokenType` (identical in both lexer files). -/
inductive TokenType where
  | Keyword
  | Identifier
  | IntegerLiteral
  | FloatLiteral
  | Operator
  | Punctuator
  | Unknown
deriving DecidableEq

/-- UTF-8 byte length of a character list: what Rust's `String::len` returns. -/
def utf8Len (cs : List Char) : Nat := (cs.map Char.utf8Size).sum

/-- `LexicalAnalyzer::is_whitespace`. -/
def is_whitespace (c : Char) : Bool := c = ' ' || c = '\t' || c = '\n' || c = '\r'

/-- `LexicalAnalyzer::is_alpha` (`char::is_ascii_alphabetic`). -/
def is_alpha (c : Char) : Bool := ('A' ≤ c && c ≤ 'Z') || ('a' ≤ c && c ≤ 'z')

/-- `LexicalAnalyzer::is_digit` (`char::is_ascii_digit`). -/
def is_digit (c : Char) : Bool := '0' ≤ c && c ≤ '9'

/-- `LexicalAnalyzer::is_alphanum`. -/
def is_alphanum (c : Char) : Bool := is_alpha c || is_digit c

/-- The operator-character test `"+-*/=!<>".contains(current_char)` of the
main lexer (`src/compiler/src/lexer.rs`). -/
def isOperatorChar (c : Char) : Bool := ("+-*/=!<>".toList).contains c

/-- The punctuator-character test `"(){};".contains(current_char)`
(identical in both files; the braces are written escaped). -/
def isPunctuatorChar (c : Char) : Bool := ("()\x7b\x7d;".toList).contains c

/-- The keyword table built by `init_keywords` (identical in both files):
a mapping from reserved lexemes to `TokenType::Keyword`.  The Rust `HashMap`
is modelled as an association list queried with `List.lookup`. -/
def keywords : List (List Char × TokenType) :=
  [("hindsa".toList, TokenType.Keyword),
   ("asharia".toList, TokenType.Keyword),
   ("agar".toList, TokenType.Keyword),
   ("phir".toList, TokenType.Keyword),
   ("lekinagar".toList, TokenType.Keyword),
   ("jabtk".toList, TokenType.Keyword),
   ("niklo".toList, TokenType.Keyword),
   ("wapsi".toList, TokenType.Keyword),
   ("irshaad".toList, TokenType.Keyword),
   ("chalooo".toList, TokenType.Keyword)]

/-- Drop `n` UTF-8 bytes from the front of a character list; `none` when `n`
falls inside a character or past the end (a Rust byte-slice panic). -/
def byteDrop : List Char → Nat → Option (List Char)
  | cs, 0 => some cs
  | [], _ + 1 => none
  | c :: cs, n + 1 =>
    if c.utf8Size ≤ n + 1 then byteDrop cs (n + 1 - c.utf8Size) else none

/-- Take `n` UTF-8 bytes from the front of a character list; `none` when `n`
falls inside a character or past the end (a Rust byte-slice panic). -/
def byteTake : List Char → Nat → Option (List Char)
  | _, 0 => some []
  | [], _ + 1 => none
  | c :: cs, n + 1 =>
    if c.utf8Size ≤ n + 1 then (byteTake cs (n + 1 - c.utf8Size)).map (c :: ·) else none

/-- The Rust byte slice `&input[start..stop]`, as a character list; `none`
models a slicing panic (out of range or not on character boundaries). -/
def byteSlice (cs : List Char) (start stop : Nat) : Option (List Char) :=
  if start ≤ stop then (byteDrop cs start).bind (fun rest => byteTake rest (stop - start)) else none

/-- `get_next_word` (identical in both files), returning the final cursor
position.  The Rust loop is `while position < input.len() &&
is_alphanum(input.chars().nth(position).unwrap())`; the `unwrap` panics
(`none`) when the byte-length guard holds but no `position`-th character
exists. -/
def getNextWordPos (input : List Char) (pos : Nat) : Option Nat :=
  if _h : pos < utf8Len input then
    match input[pos]? with
    | none => none
    | some c => if is_alphanum c then getNextWordPos input (pos + 1) else some pos
  else some pos
termination_by utf8Len input - pos
decreasing_by omega

/-- `get_next_number` (identical in both files), returning the final cursor
position, given the current `has_decimal` flag. -/
def getNextNumberPos (input : List Char) (pos : Nat) (hasDecimal : Bool) : Option Nat :=
  if _h : pos < utf8Len input then
    match input[pos]? with
    | none => none
    | some c =>
      if c = '.' then
        if hasDecimal then some pos else getNextNumberPos input (pos + 1) true
      else if is_digit c then getNextNumberPos input (pos + 1) hasDecimal
      else some pos
  else some pos
termination_by utf8Len input - pos
decreasing_by all_goals omega

/-- `getNextWordPos` with an explicit structural fuel (the executable
presentation used for evaluation and fuel induction; `getNextWordPosFuel_eq`
relates it to `getNextWordPos`). -/
def getNextWordPosFuel : Nat → List Char → Nat → Option Nat
  | 0, _, _ => none
  | fuel + 1, input, pos =>
    if pos < utf8Len input then
      match input[pos]? with
      | none => none
      | some c => if is_alphanum c then getNextWordPosFuel fuel input (pos + 1) else some pos
    else some pos

/-- `getNextNumberPos` with an explicit structural fuel. -/
def getNextNumberPosFuel : Nat → List Char → Nat → Bool → Option Nat
  | 0, _, _, _ => none
  | fuel + 1, input, pos, hasDecimal =>
    if pos < utf8Len input then
      match input[pos]? with
      | none => none
      | some c =>
        if c = '.' then
          if hasDecimal then some pos else getNextNumberPosFuel fuel input (pos + 1) true
        else if is_digit c then getNextNumberPosFuel fuel input (pos + 1) hasDecimal
        else some pos
    else some pos

/-- `struct Token` of the main lexer: kind, lexeme (the characters of the
Rust `String`), and the 1-based line number. -/
structure Token where
  token_type : TokenType
  value : List Char
  line : Nat
deriving DecidableEq

/-- The scanning loop of `LexicalAnalyzer::tokenize` in
`src/compiler/src/lexer.rs`, from cursor `pos` and line counter `line`;
returns the emitted tokens together with the final cursor and line counter
(the fields the Rust method leaves in `self`), or `none` for a panic. -/
def tokenizeAux (input : List Char) (pos line : Nat) : Option (List Token × Nat × Nat) :=
  if h : pos < utf8Len input then
    match hg : input[pos]? with
    | none => none
    | some c =>
      if is_whitespace c then
        tokenizeAux input (pos + 1) (if c = '\n' then line + 1 else line)
      else if ha : is_alpha c then
        match hw : getNextWordPos input pos with
        | none => none
        | some q =>
          match byteSlice input pos q with
          | none => none
          | some word =>
            let tt := match List.lookup word keywords with
              | some t => t
              | none => TokenType.Identifier
            (tokenizeAux input q line).map (fun r => (⟨tt, word, line⟩ :: r.1, r.2))
      else if hd : is_digit c then
        match hn : getNextNumberPos input pos false with
        | none => none
        | some q =>
          match byteSlice input pos q with
          | none => none
          | some number =>
            let tt := if number.contains '.' then TokenType.FloatLiteral else TokenType.IntegerLiteral
            (tokenizeAux input q line).map (fun r => (⟨tt, number, line⟩ :: r.1, r.2))
      else if isOperatorChar c then
        if h2 : pos + 1 < utf8Len input then
          match input[pos + 1]? with
          | none => none
          | some c2 =>
            if c2 = '=' then
              (tokenizeAux input (pos + 2) line).map
                (fun r => (⟨TokenType.Operator, [c, '='], line⟩ :: r.1, r.2))
            else
              (tokenizeAux input (pos + 1) line).map
                (fun r => (⟨TokenType.Operator, [c], line⟩ :: r.1, r.2))
        else
          (tokenizeAux input (pos + 1) line).map
            (fun r => (⟨TokenType.Operator, [c], line⟩ :: r.1, r.2))
      else if isPunctuatorChar c then
        (tokenizeAux input (pos + 1) line).map
          (fun r => (⟨TokenType.Punctuator, [c], line⟩ :: r.1, r.2))
      else
        (tokenizeAux input (pos + 1) line).map
          (fun r => (⟨TokenType.Unknown, [c], line⟩ :: r.1, r.2))
  else some ([], pos, line)
termination_by utf8Len input - pos
decreasing_by
  all_goals first
    | omega
    | (have hge : ∀ (p q2 : Nat), getNextWordPos input p = some q2 → p ≤ q2 := by
         intro p
         induction p using getNextWordPos.induct input with
         | case1 p h1 h2 => intro q2 hq2; rw [getNextWordPos] at hq2; simp [h1, h2] at hq2
         | case2 p h1 c2 h2 h3 ih =>
           intro q2 hq2
           rw [getNextWordPos] at hq2
           simp [h1, h2, h3] at hq2
           have := ih q2 hq2
           omega
         | case3 p h1 c2 h2 h3 =>
           intro q2 hq2
           rw [getNextWordPos] at hq2
           simp [h1, h2, h3] at hq2
           omega
         | case4 p h1 =>
           intro q2 hq2
           rw [getNextWordPos] at hq2
           simp [h1] at hq2
           omega
       rw [getNextWordPos] at hw
       simp [h, hg, is_alphanum, ha] at hw
       have := hge (pos + 1) q hw
       omega)
    | (have hge : ∀ (p : Nat) (b : Bool) (q2 : Nat),
           getNextNumberPos input p b = some q2 → p ≤ q2 := by
         intro p b
         induction p, b using getNextNumberPos.induct input with
         | case1 p b h1 h2 => intro q2 hq2; rw [getNextNumberPos] at hq2; simp [h1, h2] at hq2
         | case2 p h1 h2 =>
           intro q2 hq2; rw [getNextNumberPos] at hq2; simp [h1, h2] at hq2; omega
         | case3 p b h1 hnd h2 ih =>
           intro q2 hq2
           rw [getNextNumberPos] at hq2
           simp [h1, h2, hnd] at hq2
           have := ih q2 hq2
           omega
         | case4 p b h1 c2 h2 hne h3 ih =>
           intro q2 hq2
           rw [getNextNumberPos] at hq2
           simp [h1, h2, hne, h3] at hq2
           have := ih q2 hq2
           omega
         | case5 p b h1 c2 h2 hne h3 =>
           intro q2 hq2
           rw [getNextNumberPos] at hq2
           simp [h1, h2, hne, h3] at hq2
           omega
         | case6 p b h1 =>
           intro q2 hq2
           rw [getNextNumberPos] at hq2
           simp [h1] at hq2
           omega
       have hne : ¬(c = '.') := by
         intro hcc
         subst hcc
         simp [is_digit] at hd
       rw [getNextNumberPos] at hn
       simp [h, hg, hne, hd] at hn
       have := hge (pos + 1) false q hn
       omega)

/-- `struct LexicalAnalyzer` of the main lexer: the owned source, the cursor
and the line counter.  The keyword table is the fixed `keywords` above
(`init_keywords` always builds the same map). -/
structure LexicalAnalyzer where
  input : List Char
  position : Nat
  line : Nat
deriving DecidableEq

/-- `LexicalAnalyzer::new`: cursor 0, line 1. -/
def LexicalAnalyzer.new (source : List Char) : LexicalAnalyzer := ⟨source, 0, 1⟩

/-- `LexicalAnalyzer::tokenize` as a state transformer: the token vector it
returns, together with the analyzer it leaves behind (same input, advanced
cursor and line counter); `none` for a panic. -/
def LexicalAnalyzer.tokenize (a : LexicalAnalyzer) : Option (List Token × LexicalAnalyzer) :=
  (tokenizeAux a.input a.position a.line).map (fun r => (r.1, ⟨a.input, r.2.1, r.2.2⟩))

/-- Scan a whole source string with a fresh analyzer, keeping the tokens:
`LexicalAnalyzer::new(source)` followed by `tokenize()`. -/
def tokenize (source : String) : Option (List Token) :=
  ((LexicalAnalyzer.new source.toList).tokenize).map (fun r => r.1)

/-- `tokenizeAux` with an explicit structural fuel.  `tokenizeFuel_eq` shows
the fuel is irrelevant once it exceeds the remaining byte count. -/
def tokenizeFuel : Nat → List Char → Nat → Nat → Option (List Token × Nat × Nat)
  | 0, _, _, _ => none
  | fuel + 1, input, pos, line =>
    if pos < utf8Len input then
      match input[pos]? with
      | none => none
      | some c =>
        if is_whitespace c then
          tokenizeFuel fuel input (pos + 1) (if c = '\n' then line + 1 else line)
        else if is_alpha c then
          match getNextWordPosFuel (fuel + 1) input pos with
          | none => none
          | some q =>
            match byteSlice input pos q with
            | none => none
            | some word =>
              let tt := match List.lookup word keywords with
                | some t => t
                | none => TokenType.Identifier
              (tokenizeFuel fuel input q line).map (fun r => (⟨tt, word, line⟩ :: r.1, r.2))
        else if is_digit c then
          match getNextNumberPosFuel (fuel + 1) input pos false with
          | none => none
          | some q =>
            match byteSlice input pos q with
            | none => none
            | some number =>
              let tt := if number.contains '.' then TokenType.FloatLiteral else TokenType.IntegerLiteral
              (tokenizeFuel fuel input q line).map (fun r => (⟨tt, number, line⟩ :: r.1, r.2))
        else if isOperatorChar c then
          if pos + 1 < utf8Len input then
            match input[pos + 1]? with
            | none => none
            | some c2 =>
              if c2 = '=' then
                (tokenizeFuel fuel input (pos + 2) line).map
                  (fun r => (⟨TokenType.Operator, [c, '='], line⟩ :: r.1, r.2))
              else
                (tokenizeFuel fuel input (pos + 1) line).map
                  (fun r => (⟨TokenType.Operator, [c], line⟩ :: r.1, r.2))
          else
            (tokenizeFuel fuel input (pos + 1) line).map
              (fun r => (⟨TokenType.Operator, [c], line⟩ :: r.1, r.2))
        else if isPunctuatorChar c then
          (tokenizeFuel fuel input (pos + 1) line).map
            (fun r => (⟨TokenType.Punctuator, [c], line⟩ :: r.1, r.2))
        else
          (tokenizeFuel fuel input (pos + 1) line).map
            (fun r => (⟨TokenType.Unknown, [c], line⟩ :: r.1, r.2))
    else some ([], pos, line)

namespace SrcLexer

/-- `struct Token` of the `src/lexer.rs` variant: no line field. -/
structure Token where
  token_type : TokenType
  value : List Char
deriving DecidableEq

/-- The variant's operator-character test `"+-*/=!".contains(current_char)`:
no `<` or `>`. -/
def isOperatorChar (c : Char) : Bool := ("+-*/=!".toList).contains c

/-- The scanning loop of `LexicalAnalyzer::tokenize` in `src/lexer.rs`: no
line tracking, single-character operators, keyword lookup through
`unwrap_or`.  The word and number scans and the character classes other than
operators are the same code as in the main lexer, so those definitions are
shared. -/
def tokenizeAux (input : List Char) (pos : Nat) : Option (List Token) :=
  if h : pos < utf8Len input then
    match hg : input[pos]? with
    | none => none
    | some c =>
      if is_whitespace c then
        tokenizeAux input (pos + 1)
      else if ha : is_alpha c then
        match hw : getNextWordPos input pos with
        | none => none
        | some q =>
          match byteSlice input pos q with
          | none => none
          | some word =>
            let token_type := (List.lookup word keywords).getD TokenType.Identifier
            (tokenizeAux input q).map (fun ts => ⟨token_type, word⟩ :: ts)
      else if hd : is_digit c then
        match hn : getNextNumberPos input pos false with
        | none => none
        | some q =>
          match byteSlice input pos q with
          | none => none
          | some number =>
            let token_type :=
              if number.contains '.' then TokenType.FloatLiteral else TokenType.IntegerLiteral
            (tokenizeAux input q).map (fun ts => ⟨token_type, number⟩ :: ts)
      else if isOperatorChar c then
        (tokenizeAux input (pos + 1)).map (fun ts => ⟨TokenType.Operator, [c]⟩ :: ts)
      else if isPunctuatorChar c then
        (tokenizeAux input (pos + 1)).map (fun ts => ⟨TokenType.Punctuator, [c]⟩ :: ts)
      else
        (tokenizeAux input (pos + 1)).map (fun ts => ⟨TokenType.Unknown, [c]⟩ :: ts)
  else some []
termination_by utf8Len input - pos
decreasing_by
  all_goals first
    | omega
    | (have hge : ∀ (p q2 : Nat), getNextWordPos input p = some q2 → p ≤ q2 := by
         intro p
         induction p using getNextWordPos.induct input with
         | case1 p h1 h2 => intro q2 hq2; rw [getNextWordPos] at hq2; simp [h1, h2] at hq2
         | case2 p h1 c2 h2 h3 ih =>
           intro q2 hq2
           rw [getNextWordPos] at hq2
           simp [h1, h2, h3] at hq2
           have := ih q2 hq2
           omega
         | case3 p h1 c2 h2 h3 =>
           intro q2 hq2
           rw [getNextWordPos] at hq2
           simp [h1, h2, h3] at hq2
           omega
         | case4 p h1 =>
           intro q2 hq2
           rw [getNextWordPos] at hq2
           simp [h1] at hq2
           omega
       rw [getNextWordPos] at hw
       simp [h, hg, is_alphanum, ha] at hw
       have := hge (pos + 1) q hw
       omega)
    | (have hge : ∀ (p : Nat) (b : Bool) (q2 : Nat),
           getNextNumberPos input p b = some q2 → p ≤ q2 := by
         intro p b
         induction p, b using getNextNumberPos.induct input with
         | case1 p b h1 h2 => intro q2 hq2; rw [getNextNumberPos] at hq2; simp [h1, h2] at hq2
         | case2 p h1 h2 =>
           intro q2 hq2; rw [getNextNumberPos] at hq2; simp [h1, h2] at hq2; omega
         | case3 p b h1 hnd h2 ih =>
           intro q2 hq2
           rw [getNextNumberPos] at hq2
           simp [h1, h2, hnd] at hq2
           have := ih q2 hq2
           omega
         | case4 p b h1 c2 h2 hne h3 ih =>
           intro q2 hq2
           rw [getNextNumberPos] at hq2
           simp [h1, h2, hne, h3] at hq2
           have := ih q2 hq2
           omega
         | case5 p b h1 c2 h2 hne h3 =>
           intro q2 hq2
           rw [getNextNumberPos] at hq2
           simp [h1, h2, hne, h3] at hq2
           omega
         | case6 p b h1 =>
           intro q2 hq2
           rw [getNextNumberPos] at hq2
           simp [h1] at hq2
           omega
       have hne : ¬(c = '.') := by
         intro hcc
         subst hcc
         simp [is_digit] at hd
       rw [getNextNumberPos] at hn
       simp [h, hg, hne, hd] at hn
       have := hge (pos + 1) false q hn
       omega)

/-- Scan a whole source string with the variant lexer. -/
def tokenize (source : String) : Option (List Token) := tokenizeAux source.toList 0

/-- `SrcLexer.tokenizeAux` with an explicit structural fuel. -/
def tokenizeFuel : Nat → List Char → Nat → Option (List Token)
  | 0, _, _ => none
  | fuel + 1, input, pos =>
    if pos < utf8Len input then
      match input[pos]? with
      | none => none
      | some c =>
        if is_whitespace c then
          tokenizeFuel fuel input (pos + 1)
        else if is_alpha c then
          match getNextWordPosFuel (fuel + 1) input pos with
          | none => none
          | some q =>
            match byteSlice input pos q with
            | none => none
            | some word =>
              let token_type := (List.lookup word keywords).getD TokenType.Identifier
              (tokenizeFuel fuel input q).map (fun ts => ⟨token_type, word⟩ :: ts)
        else if is_digit c then
          match getNextNumberPosFuel (fuel + 1) input pos false with
          | none => none
          | some q =>
            match byteSlice input pos q with
            | none => none
            | some number =>
              let token_type :=
                if number.contains '.' then TokenType.FloatLiteral else TokenType.IntegerLiteral
              (tokenizeFuel fuel input q).map (fun ts => ⟨token_type, number⟩ :: ts)
        else if isOperatorChar c then
          (tokenizeFuel fuel input (pos + 1)).map (fun ts => ⟨TokenType.Operator, [c]⟩ :: ts)
        else if isPunctuatorChar c then
          (tokenizeFuel fuel input (pos + 1)).map (fun ts => ⟨TokenType.Punctuator, [c]⟩ :: ts)
        else
          (tokenizeFuel fuel input (pos + 1)).map (fun ts => ⟨TokenType.Unknown, [c]⟩ :: ts)
    else some []

end SrcLexer

/-- The inputs on which character indices and byte indices coincide: every
character is one UTF-8 byte.  This is the spec's "ASCII-oriented" domain. -/
def AsciiInput (cs : List Char) : Prop := ∀ c ∈ cs, c.utf8Size = 1

theorem getNextWordPos_ge (input : List Char) (pos q : Nat)
    (h : getNextWordPos input pos = some q) : pos ≤ q := by
  induction pos using getNextWordPos.induct input with
  | case1 pos h1 h2 => rw [getNextWordPos] at h; simp [h1, h2] at h
  | case2 pos h1 c h2 h3 ih =>
    rw [getNextWordPos] at h; simp [h1, h2, h3] at h
    have := ih h; omega
  | case3 pos h1 c h2 h3 =>
    rw [getNextWordPos] at h; simp [h1, h2, h3] at h; omega
  | case4 pos h1 =>
    rw [getNextWordPos] at h; simp [h1] at h; omega

theorem getNextNumberPos_ge (input : List Char) (pos : Nat) (b : Bool) (q : Nat)
    (h : getNextNumberPos input pos b = some q) : pos ≤ q := by
  induction pos, b using getNextNumberPos.induct input with
  | case1 pos b h1 h2 => rw [getNextNumberPos] at h; simp [h1, h2] at h
  | case2 pos h1 h2 =>
    rw [getNextNumberPos] at h; simp [h1, h2] at h; omega
  | case3 pos b h1 hnd h2 ih =>
    rw [getNextNumberPos] at h; simp [h1, h2, hnd] at h
    have := ih h; omega
  | case4 pos b h1 c h2 hne h3 ih =>
    rw [getNextNumberPos] at h; simp [h1, h2, hne, h3] at h
    have := ih h; omega
  | case5 pos b h1 c h2 hne h3 =>
    rw [getNextNumberPos] at h; simp [h1, h2, hne, h3] at h; omega
  | case6 pos b h1 =>
    rw [getNextNumberPos] at h; simp [h1] at h; omega

theorem is_digit_ne_dot {c : Char} (h : is_digit c = true) : c ≠ '.' := by
  rintro rfl; simp [is_digit] at h

theorem getNextWordPos_gt (input : List Char) (pos q : Nat) (c : Char)
    (h1 : pos < utf8Len input) (h2 : input[pos]? = some c) (h3 : is_alphanum c = true)
    (h : getNextWordPos input pos = some q) : pos < q := by
  rw [getNextWordPos] at h
  simp [h1, h2, h3] at h
  have := getNextWordPos_ge input (pos + 1) q h
  omega

theorem getNextNumberPos_gt (input : List Char) (pos q : Nat) (c : Char)
    (h1 : pos < utf8Len input) (h2 : input[pos]? = some c) (h3 : is_digit c = true)
    (h : getNextNumberPos input pos false = some q) : pos < q := by
  rw [getNextNumberPos] at h
  simp [h1, h2, is_digit_ne_dot h3, h3] at h
  have := getNextNumberPos_ge input (pos + 1) false q h
  omega

theorem is_alpha_alphanum {c : Char} (h : is_alpha c = true) : is_alphanum c = true := by
  simp [is_alphanum, h]

theorem getNextWordPosFuel_eq (input : List Char) :
    ∀ (fuel pos : Nat), utf8Len input - pos < fuel →
      getNextWordPosFuel fuel input pos = getNextWordPos input pos := by
  intro fuel
  induction fuel with
  | zero => intro pos h; omega
  | succ n ih =>
    intro pos h
    rw [getNextWordPos, getNextWordPosFuel]
    by_cases hp : pos < utf8Len input
    · simp only [hp, if_true, dif_pos]
      cases hg : input[pos]? with
      | none => rfl
      | some c =>
        by_cases ha : is_alphanum c
        · simp only [ha, if_true]
          exact ih (pos + 1) (by omega)
        · simp only [ha, if_false, Bool.false_eq_true]
    · rw [if_neg hp, dif_neg hp]

theorem getNextNumberPosFuel_eq (input : List Char) :
    ∀ (fuel pos : Nat) (b : Bool), utf8Len input - pos < fuel →
      getNextNumberPosFuel fuel input pos b = getNextNumberPos input pos b := by
  intro fuel
  induction fuel with
  | zero => intro pos b h; omega
  | succ n ih =>
    intro pos b h
    rw [getNextNumberPos, getNextNumberPosFuel]
    by_cases hp : pos < utf8Len input
    · simp only [hp, if_true, dif_pos]
      cases hg : input[pos]? with
      | none => rfl
      | some c =>
        by_cases hdot : c = '.'
        · simp only [hdot, if_true]
          cases b with
          | true => rfl
          | false => simp only [Bool.false_eq_true, if_false]; exact ih (pos + 1) true (by omega)
        · simp only [hdot, if_false]
          by_cases hd : is_digit c
          · simp only [hd, if_true]
            exact ih (pos + 1) b (by omega)
          · simp only [hd, Bool.false_eq_true, if_false]
    · rw [if_neg hp, dif_neg hp]

/-- A result produced with partial fuel is the true word-scan result. -/
theorem getNextWordPosFuel_sound : ∀ (fuel : Nat) (input : List Char) (pos q : Nat),
    getNextWordPosFuel fuel input pos = some q → getNextWordPos input pos = some q := by
  intro fuel
  induction fuel with
  | zero => intro input pos q h; simp [getNextWordPosFuel] at h
  | succ n ih =>
    intro input pos q h
    rw [getNextWordPosFuel] at h
    rw [getNextWordPos]
    by_cases hp : pos < utf8Len input
    · rw [if_pos hp] at h
      rw [dif_pos hp]
      cases hg : input[pos]? with
      | none => simp [hg] at h
      | some c =>
        simp only [hg] at h ⊢
        by_cases ha : is_alphanum c
        · simp only [ha, if_true] at h ⊢
          exact ih input (pos + 1) q h
        · simp only [ha, Bool.false_eq_true, if_false] at h ⊢
          exact h
    · rw [if_neg hp] at h
      rw [dif_neg hp]
      exact h

theorem getNextNumberPosFuel_sound :
    ∀ (fuel : Nat) (input : List Char) (pos : Nat) (b : Bool) (q : Nat),
      getNextNumberPosFuel fuel input pos b = some q → getNextNumberPos input pos b = some q := by
  intro fuel
  induction fuel with
  | zero => intro input pos b q h; simp [getNextNumberPosFuel] at h
  | succ n ih =>
    intro input pos b q h
    rw [getNextNumberPosFuel] at h
    rw [getNextNumberPos]
    by_cases hp : pos < utf8Len input
    · rw [if_pos hp] at h
      rw [dif_pos hp]
      cases hg : input[pos]? with
      | none => simp [hg] at h
      | some c =>
        simp only [hg] at h ⊢
        by_cases hdot : c = '.'
        · simp only [hdot, if_true] at h ⊢
          cases b with
          | true => exact h
          | false =>
            simp only [Bool.false_eq_true, if_false] at h ⊢
            exact ih input (pos + 1) true q h
        · simp only [hdot, if_false] at h ⊢
          by_cases hd : is_digit c
          · simp only [hd, if_true] at h ⊢
            exact ih input (pos + 1) b q h
          · simp only [hd, Bool.false_eq_true, if_false] at h ⊢
            exact h
    · rw [if_neg hp] at h
      rw [dif_neg hp]
      exact h

/-- With fuel above the remaining byte count, the fuel presentation agrees
with the scanning loop. -/
theorem tokenizeFuel_eq (input : List Char) :
    ∀ (fuel pos line : Nat), utf8Len input - pos < fuel →
      tokenizeFuel fuel input pos line = tokenizeAux input pos line := by
  intro fuel
  induction fuel with
  | zero => intro pos line h; omega
  | succ n ih =>
    intro pos line h
    rw [tokenizeAux, tokenizeFuel]
    by_cases hp : pos < utf8Len input
    · simp only [hp, if_true, dif_pos]
      cases hg : input[pos]? with
      | none => rfl
      | some c =>
        by_cases hws : is_whitespace c
        · simp only [hws, if_true]
          exact ih (pos + 1) _ (by omega)
        · simp only [hws, if_false, Bool.false_eq_true, dite_eq_ite]
          by_cases ha : is_alpha c
          · simp only [ha, if_true, dif_pos]
            rw [getNextWordPosFuel_eq input (n + 1) pos (by omega)]
            cases hw : getNextWordPos input pos with
            | none => rfl
            | some q =>
              have hq : pos < q :=
                getNextWordPos_gt input pos q c hp hg (is_alpha_alphanum ha) hw
              simp only []
              cases hs : byteSlice input pos q with
              | none => rfl
              | some word =>
                simp only []
                rw [ih q line (by omega)]
          · simp only [ha, if_false, Bool.false_eq_true, dite_eq_ite]
            by_cases hd : is_digit c
            · simp only [hd, if_true, dif_pos]
              rw [getNextNumberPosFuel_eq input (n + 1) pos false (by omega)]
              cases hn : getNextNumberPos input pos false with
              | none => rfl
              | some q =>
                have hq : pos < q := getNextNumberPos_gt input pos q c hp hg hd hn
                simp only []
                cases hs : byteSlice input pos q with
                | none => rfl
                | some number =>
                  simp only []
                  rw [ih q line (by omega)]
            · simp only [hd, if_false, Bool.false_eq_true, dite_eq_ite]
              by_cases hop : isOperatorChar c
              · simp only [hop, if_true]
                by_cases h2 : pos + 1 < utf8Len input
                · simp only [h2, if_true, dif_pos]
                  cases hg2 : input[pos + 1]? with
                  | none => rfl
                  | some c2 =>
                    by_cases he : c2 = '='
                    · simp only [he, if_true]
                      rw [ih (pos + 2) line (by omega)]
                    · simp only [he, if_false]
                      rw [ih (pos + 1) line (by omega)]
                · simp only [h2, if_false, dif_neg]
                  rw [ih (pos + 1) line (by omega)]
              · simp only [hop, if_false, Bool.false_eq_true]
                by_cases hpu : isPunctuatorChar c
                · simp only [hpu, if_true]
                  rw [ih (pos + 1) line (by omega)]
                · simp only [hpu, if_false, Bool.false_eq_true]
                  rw [ih (pos + 1) line (by omega)]
    · rw [if_neg hp, dif_neg hp]

theorem tokenizeAux_eq_fullFuel (input : List Char) (pos line : Nat) :
    tokenizeAux input pos line = tokenizeFuel (utf8Len input + 1) input pos line :=
  (tokenizeFuel_eq input (utf8Len input + 1) pos line (by omega)).symm

theorem tokenize_eq_fuel (s : String) :
    tokenize s = (tokenizeFuel (utf8Len s.toList + 1) s.toList 0 1).map (fun r => r.1) := by
  unfold tokenize LexicalAnalyzer.tokenize LexicalAnalyzer.new
  rw [tokenizeFuel_eq s.toList (utf8Len s.toList + 1) 0 1 (by omega)]
  cases tokenizeAux s.toList 0 1 <;> rfl

theorem getNextWordPos_le (input : List Char) (pos q : Nat)
    (hle : pos ≤ utf8Len input) (h : getNextWordPos input pos = some q) : q ≤ utf8Len input := by
  induction pos using getNextWordPos.induct input with
  | case1 pos h1 h2 => rw [getNextWordPos] at h; simp [h1, h2] at h
  | case2 pos h1 c h2 h3 ih =>
    rw [getNextWordPos] at h; simp [h1, h2, h3] at h
    exact ih (by omega) h
  | case3 pos h1 c h2 h3 =>
    rw [getNextWordPos] at h; simp [h1, h2, h3] at h; omega
  | case4 pos h1 =>
    rw [getNextWordPos] at h; simp [h1] at h; omega

theorem getNextNumberPos_le (input : List Char) (pos : Nat) (b : Bool) (q : Nat)
    (hle : pos ≤ utf8Len input) (h : getNextNumberPos input pos b = some q) :
    q ≤ utf8Len input := by
  induction pos, b using getNextNumberPos.induct input with
  | case1 pos b h1 h2 => rw [getNextNumberPos] at h; simp [h1, h2] at h
  | case2 pos h1 h2 =>
    rw [getNextNumberPos] at h; simp [h1, h2] at h; omega
  | case3 pos b h1 hnd h2 ih =>
    rw [getNextNumberPos] at h; simp [h1, h2, hnd] at h
    exact ih (by omega) h
  | case4 pos b h1 c h2 hne h3 ih =>
    rw [getNextNumberPos] at h; simp [h1, h2, hne, h3] at h
    exact ih (by omega) h
  | case5 pos b h1 c h2 hne h3 =>
    rw [getNextNumberPos] at h; simp [h1, h2, hne, h3] at h; omega
  | case6 pos b h1 =>
    rw [getNextNumberPos] at h; simp [h1] at h; omega

theorem length_le_utf8Len (cs : List Char) : cs.length ≤ utf8Len cs := by
  induction cs with
  | nil => simp [utf8Len]
  | cons c cs ih =>
    have := Char.utf8Size_pos c
    simp only [utf8Len, List.map_cons, List.sum_cons, List.length_cons] at *
    omega

/-- Maximal munch: the word scan consumes exactly the contiguous run of
alphanumeric characters, stopping at the first non-alphanumeric character
(or the end). -/
theorem getNextWordPos_sound (input : List Char) (pos q : Nat)
    (h : getNextWordPos input pos = some q) :
    (∀ i, pos ≤ i → i < q → ∃ c, input[i]? = some c ∧ is_alphanum c = true) ∧
      (q < input.length → ∃ c, input[q]? = some c ∧ is_alphanum c = false) := by
  induction pos using getNextWordPos.induct input with
  | case1 pos h1 h2 => rw [getNextWordPos] at h; simp [h1, h2] at h
  | case2 pos h1 c h2 h3 ih =>
    rw [getNextWordPos] at h; simp [h1, h2, h3] at h
    obtain ⟨ih1, ih2⟩ := ih h
    refine ⟨fun i hi1 hi2 => ?_, ih2⟩
    rcases Nat.eq_or_lt_of_le hi1 with rfl | hi1
    · exact ⟨c, h2, h3⟩
    · exact ih1 i hi1 hi2
  | case3 pos h1 c h2 h3 =>
    rw [getNextWordPos] at h; simp [h1, h2, h3] at h
    subst h
    exact ⟨fun i hi1 hi2 => absurd hi2 (by omega), fun _ => ⟨c, h2, by simpa using h3⟩⟩
  | case4 pos h1 =>
    rw [getNextWordPos] at h; simp [h1] at h
    subst h
    have := length_le_utf8Len input
    exact ⟨fun i hi1 hi2 => absurd hi2 (by omega), fun hq => absurd hq (by omega)⟩

/-- Every character consumed by the number scan is a digit or a decimal
point. -/
theorem getNextNumberPos_sound (input : List Char) (pos : Nat) (b : Bool) (q : Nat)
    (h : getNextNumberPos input pos b = some q) :
    ∀ i, pos ≤ i → i < q → ∃ c, input[i]? = some c ∧ (c = '.' ∨ is_digit c = true) := by
  induction pos, b using getNextNumberPos.induct input with
  | case1 pos b h1 h2 => rw [getNextNumberPos] at h; simp [h1, h2] at h
  | case2 pos h1 h2 =>
    rw [getNextNumberPos] at h; simp [h1, h2] at h
    intro i hi1 hi2; omega
  | case3 pos b h1 hnd h2 ih =>
    rw [getNextNumberPos] at h; simp [h1, h2, hnd] at h
    intro i hi1 hi2
    rcases Nat.eq_or_lt_of_le hi1 with rfl | hi1
    · exact ⟨'.', h2, Or.inl rfl⟩
    · exact ih h i hi1 hi2
  | case4 pos b h1 c h2 hne h3 ih =>
    rw [getNextNumberPos] at h; simp [h1, h2, hne, h3] at h
    intro i hi1 hi2
    rcases Nat.eq_or_lt_of_le hi1 with rfl | hi1
    · exact ⟨c, h2, Or.inr h3⟩
    · exact ih h i hi1 hi2
  | case5 pos b h1 c h2 hne h3 =>
    rw [getNextNumberPos] at h; simp [h1, h2, hne, h3] at h
    intro i hi1 hi2; omega
  | case6 pos b h1 =>
    rw [getNextNumberPos] at h; simp [h1] at h
    intro i hi1 hi2; omega

theorem ws_not_alphanum {c : Char} (h : is_whitespace c = true) : is_alphanum c = false := by
  simp only [is_whitespace, Bool.or_eq_true, decide_eq_true_eq] at h
  rcases h with ((rfl | rfl) | rfl) | rfl <;> decide

theorem alphanum_not_ws {c : Char} (h : is_alphanum c = true) : is_whitespace c = false := by
  cases hws : is_whitespace c
  · rfl
  · rw [ws_not_alphanum hws] at h; cases h

theorem alphanum_ne_nl {c : Char} (h : is_alphanum c = true) : c ≠ '\n' := by
  rintro rfl; exact absurd h (by decide)

theorem digit_or_dot_not_ws {c : Char} (h : c = '.' ∨ is_digit c = true) :
    is_whitespace c = false := by
  rcases h with rfl | hd
  · decide
  · cases hws : is_whitespace c
    · rfl
    · simp only [is_whitespace, Bool.or_eq_true, decide_eq_true_eq] at hws
      rcases hws with ((rfl | rfl) | rfl) | rfl <;> simp [is_digit] at hd

theorem digit_or_dot_ne_nl {c : Char} (h : c = '.' ∨ is_digit c = true) : c ≠ '\n' := by
  rintro rfl
  rcases h with h | h <;> simp [is_digit] at h

/-- Everything the keyword table maps to is `Keyword`. -/
theorem keywords_lookup_keyword {w : List Char} {tt : TokenType}
    (h : List.lookup w keywords = some tt) : tt = TokenType.Keyword := by
  simp only [keywords, List.lookup] at h
  repeat' split at h
  all_goals simp_all

theorem utf8Len_ascii : ∀ {cs : List Char}, AsciiInput cs → utf8Len cs = cs.length := by
  intro cs
  induction cs with
  | nil => intro _; simp [utf8Len]
  | cons c cs ih =>
    intro h
    have hc : c.utf8Size = 1 := h c (by simp)
    have ht : AsciiInput cs := fun d hd => h d (by simp [hd])
    have := ih ht
    simp only [utf8Len, List.map_cons, List.sum_cons, List.length_cons] at *
    omega

theorem ascii_drop {cs : List Char} (h : AsciiInput cs) (n : Nat) : AsciiInput (cs.drop n) :=
  fun c hc => h c (List.mem_of_mem_drop hc)

theorem byteDrop_ascii : ∀ {cs : List Char}, AsciiInput cs →
    ∀ n ≤ cs.length, byteDrop cs n = some (cs.drop n) := by
  intro cs
  induction cs with
  | nil =>
    intro _ n hn
    cases n with
    | zero => rfl
    | succ m => simp at hn
  | cons c cs ih =>
    intro h n hn
    cases n with
    | zero => rfl
    | succ m =>
      have hc : c.utf8Size = 1 := h c (by simp)
      have ht : AsciiInput cs := fun d hd => h d (by simp [hd])
      rw [byteDrop]
      simp only [hc, List.length_cons] at *
      rw [if_pos (by omega)]
      simpa using ih ht m (by omega)

theorem byteTake_ascii : ∀ {cs : List Char}, AsciiInput cs →
    ∀ n ≤ cs.length, byteTake cs n = some (cs.take n) := by
  intro cs
  induction cs with
  | nil =>
    intro _ n hn
    cases n with
    | zero => rfl
    | succ m => simp at hn
  | cons c cs ih =>
    intro h n hn
    cases n with
    | zero => rfl
    | succ m =>
      have hc : c.utf8Size = 1 := h c (by simp)
      have ht : AsciiInput cs := fun d hd => h d (by simp [hd])
      rw [byteTake]
      simp only [hc, List.length_cons] at *
      rw [if_pos (by omega)]
      simp only [Nat.add_sub_cancel]
      rw [ih ht m (by omega)]
      rfl

theorem byteSlice_ascii {cs : List Char} (h : AsciiInput cs) {a b : Nat}
    (hab : a ≤ b) (hb : b ≤ cs.length) :
    byteSlice cs a b = some ((cs.drop a).take (b - a)) := by
  rw [byteSlice, if_pos hab, byteDrop_ascii h a (by omega)]
  simp only [Option.some_bind]
  exact byteTake_ascii (ascii_drop h a) (b - a) (by simp only [List.length_drop]; omega)

theorem byteTake_ne_nil {cs : List Char} {n : Nat} {w : List Char}
    (hn : 0 < n) (h : byteTake cs n = some w) : w ≠ [] := by
  cases cs with
  | nil => cases n with
    | zero => omega
    | succ m => simp [byteTake] at h
  | cons c cs =>
    cases n with
    | zero => omega
    | succ m =>
      rw [byteTake] at h
      by_cases hc : c.utf8Size ≤ m + 1
      · rw [if_pos hc] at h
        obtain ⟨w2, hw2, rfl⟩ := Option.map_eq_some'.mp h
        simp
      · rw [if_neg hc] at h
        exact absurd h (by simp)

theorem byteSlice_ne_nil {cs : List Char} {a b : Nat} {w : List Char}
    (hab : a < b) (h : byteSlice cs a b = some w) : w ≠ [] := by
  rw [byteSlice, if_pos (by omega)] at h
  obtain ⟨rest, hrest, htake⟩ := Option.bind_eq_some.mp h
  exact byteTake_ne_nil (by omega) htake

theorem getNextWordPos_ascii_some {input : List Char} (hA : AsciiInput input) :
    ∀ pos ≤ input.length, ∃ q, getNextWordPos input pos = some q := by
  have hL : utf8Len input = input.length := utf8Len_ascii hA
  intro pos
  induction pos using getNextWordPos.induct input with
  | case1 pos h1 h2 =>
    intro hle
    rw [List.getElem?_eq_none_iff] at h2
    omega
  | case2 pos h1 c h2 h3 ih =>
    intro hle
    obtain ⟨q, hq⟩ := ih (by omega)
    refine ⟨q, ?_⟩
    rw [getNextWordPos]
    simp [h1, h2, h3, hq]
  | case3 pos h1 c h2 h3 =>
    intro hle
    refine ⟨pos, ?_⟩
    rw [getNextWordPos]
    simp [h1, h2, h3]
  | case4 pos h1 =>
    intro hle
    refine ⟨pos, ?_⟩
    rw [getNextWordPos, dif_neg h1]

theorem getNextNumberPos_ascii_some {input : List Char} (hA : AsciiInput input) :
    ∀ pos, ∀ b : Bool, pos ≤ input.length → ∃ q, getNextNumberPos input pos b = some q := by
  have hL : utf8Len input = input.length := utf8Len_ascii hA
  intro pos b
  induction pos, b using getNextNumberPos.induct input with
  | case1 pos b h1 h2 =>
    intro hle
    rw [List.getElem?_eq_none_iff] at h2
    omega
  | case2 pos h1 h2 =>
    intro hle
    refine ⟨pos, ?_⟩
    rw [getNextNumberPos]
    simp [h1, h2]
  | case3 pos b h1 hnd h2 ih =>
    intro hle
    obtain ⟨q, hq⟩ := ih (by omega)
    refine ⟨q, ?_⟩
    rw [getNextNumberPos]
    simp [h1, h2, hnd, hq]
  | case4 pos b h1 c h2 hne h3 ih =>
    intro hle
    obtain ⟨q, hq⟩ := ih (by omega)
    refine ⟨q, ?_⟩
    rw [getNextNumberPos]
    simp [h1, h2, hne, h3, hq]
  | case5 pos b h1 c h2 hne h3 =>
    intro hle
    refine ⟨pos, ?_⟩
    rw [getNextNumberPos]
    simp [h1, h2, hne, h3]
  | case6 pos b h1 =>
    intro hle
    refine ⟨pos, ?_⟩
    rw [getNextNumberPos, dif_neg h1]

theorem drop_cons_at {input : List Char} {pos : Nat} {c : Char}
    (h : input[pos]? = some c) : input.drop pos = c :: input.drop (pos + 1) := by
  have hlt : pos < input.length := by
    by_contra hge
    rw [List.getElem?_eq_none_iff.mpr (by omega)] at h
    cases h
  rw [List.drop_eq_getElem_cons hlt]
  rw [List.getElem?_eq_getElem hlt] at h
  rw [Option.some.inj h]

theorem drop_split {input : List Char} {pos q : Nat} (h1 : pos ≤ q) :
    input.drop pos = (input.drop pos).take (q - pos) ++ input.drop q := by
  conv_lhs => rw [← List.take_append_drop (q - pos) (input.drop pos)]
  rw [List.drop_drop]
  congr 2
  omega

theorem mem_take_drop {input : List Char} {pos k : Nat} {c : Char}
    (hc : c ∈ (input.drop pos).take k) : ∃ i, pos ≤ i ∧ i < pos + k ∧ input[i]? = some c := by
  obtain ⟨j, hj⟩ := List.mem_iff_getElem?.mp hc
  rw [List.getElem?_take] at hj
  by_cases hjk : j < k
  · rw [if_pos hjk] at hj
    rw [List.getElem?_drop] at hj
    exact ⟨pos + j, by omega, by omega, hj⟩
  · rw [if_neg hjk] at hj
    cases hj

theorem getElem_some_of_lt (input : List Char) (pos : Nat) (h : pos < input.length) :
    ∃ c, input[pos]? = some c :=
  ⟨input[pos], List.getElem?_eq_getElem h⟩

theorem tokenizeFuel_final_pos : ∀ (fuel : Nat) (input : List Char) (pos line : Nat) (ts : List Token) (p l : Nat),
    pos ≤ utf8Len input → tokenizeFuel fuel input pos line = some (ts, p, l) →
      pos ≤ p ∧ p = utf8Len input := by
  intro fuel
  induction fuel with
  | zero => intro input pos line ts p l hle h; simp [tokenizeFuel] at h
  | succ n ih =>
    intro input pos line ts p l hle h
    rw [tokenizeFuel] at h
    by_cases hp : pos < utf8Len input
    · rw [if_pos hp] at h
      cases hg : input[pos]? with
      | none => simp [hg] at h
      | some c =>
        simp only [hg] at h
        by_cases hws : is_whitespace c
        · simp only [hws, if_true] at h
          have := ih input (pos + 1) _ ts p l (by omega) h
          omega
        · simp only [hws, Bool.false_eq_true, if_false] at h
          by_cases ha : is_alpha c
          · simp only [ha, if_true] at h
            cases hw : getNextWordPosFuel (n + 1) input pos with
            | none => simp [hw] at h
            | some q =>
              simp only [hw] at h
              have hwr := getNextWordPosFuel_sound (n + 1) input pos q hw
              have hq1 : pos ≤ q := getNextWordPos_ge input pos q hwr
              have hq2 : q ≤ utf8Len input := getNextWordPos_le input pos q (by omega) hwr
              cases hs : byteSlice input pos q with
              | none => simp [hs] at h
              | some word =>
                simp only [hs] at h
                rw [Option.map_eq_some'] at h
                obtain ⟨⟨ts2, p2, l2⟩, hrec, heq⟩ := h
                simp only [Prod.mk.injEq] at heq
                obtain ⟨rfl, rfl, rfl⟩ := heq
                have := ih input q line ts2 p2 l2 hq2 hrec
                omega
          · simp only [ha, Bool.false_eq_true, if_false] at h
            by_cases hd : is_digit c
            · simp only [hd, if_true] at h
              cases hn2 : getNextNumberPosFuel (n + 1) input pos false with
              | none => simp [hn2] at h
              | some q =>
                simp only [hn2] at h
                have hnr := getNextNumberPosFuel_sound (n + 1) input pos false q hn2
                have hq1 : pos ≤ q := getNextNumberPos_ge input pos false q hnr
                have hq2 : q ≤ utf8Len input := getNextNumberPos_le input pos false q (by omega) hnr
                cases hs : byteSlice input pos q with
                | none => simp [hs] at h
                | some number =>
                  simp only [hs] at h
                  rw [Option.map_eq_some'] at h
                  obtain ⟨⟨ts2, p2, l2⟩, hrec, heq⟩ := h
                  simp only [Prod.mk.injEq] at heq
                  obtain ⟨rfl, rfl, rfl⟩ := heq
                  have := ih input q line ts2 p2 l2 hq2 hrec
                  omega
            · simp only [hd, Bool.false_eq_true, if_false] at h
              by_cases hop : isOperatorChar c
              · simp only [hop, if_true] at h
                by_cases h2 : pos + 1 < utf8Len input
                · rw [if_pos h2] at h
                  cases hg2 : input[pos + 1]? with
                  | none => simp [hg2] at h
                  | some c2 =>
                    simp only [hg2] at h
                    by_cases he : c2 = '='
                    · simp only [he, if_true] at h
                      rw [Option.map_eq_some'] at h
                      obtain ⟨⟨ts2, p2, l2⟩, hrec, heq⟩ := h
                      simp only [Prod.mk.injEq] at heq
                      obtain ⟨rfl, rfl, rfl⟩ := heq
                      have := ih input (pos + 2) line ts2 p2 l2 (by omega) hrec
                      omega
                    · simp only [he, if_false] at h
                      rw [Option.map_eq_some'] at h
                      obtain ⟨⟨ts2, p2, l2⟩, hrec, heq⟩ := h
                      simp only [Prod.mk.injEq] at heq
                      obtain ⟨rfl, rfl, rfl⟩ := heq
                      have := ih input (pos + 1) line ts2 p2 l2 (by omega) hrec
                      omega
                · rw [if_neg h2] at h
                  rw [Option.map_eq_some'] at h
                  obtain ⟨⟨ts2, p2, l2⟩, hrec, heq⟩ := h
                  simp only [Prod.mk.injEq] at heq
                  obtain ⟨rfl, rfl, rfl⟩ := heq
                  have := ih input (pos + 1) line ts2 p2 l2 (by omega) hrec
                  omega
              · simp only [hop, Bool.false_eq_true, if_false] at h
                by_cases hpu : isPunctuatorChar c
                · simp only [hpu, if_true] at h
                  rw [Option.map_eq_some'] at h
                  obtain ⟨⟨ts2, p2, l2⟩, hrec, heq⟩ := h
                  simp only [Prod.mk.injEq] at heq
                  obtain ⟨rfl, rfl, rfl⟩ := heq
                  have := ih input (pos + 1) line ts2 p2 l2 (by omega) hrec
                  omega
                · simp only [hpu, Bool.false_eq_true, if_false] at h
                  rw [Option.map_eq_some'] at h
                  obtain ⟨⟨ts2, p2, l2⟩, hrec, heq⟩ := h
                  simp only [Prod.mk.injEq] at heq
                  obtain ⟨rfl, rfl, rfl⟩ := heq
                  have := ih input (pos + 1) line ts2 p2 l2 (by omega) hrec
                  omega
    · rw [if_neg hp] at h
      simp only [Option.some.injEq, Prod.mk.injEq] at h
      obtain ⟨rfl, rfl, rfl⟩ := h
      omega

theorem tokenizeAux_final_pos (input : List Char) (pos line : Nat) (ts : List Token) (p l : Nat)
    (hle : pos ≤ utf8Len input) (h : tokenizeAux input pos line = some (ts, p, l)) :
    pos ≤ p ∧ p = utf8Len input := by
  rw [tokenizeAux_eq_fullFuel] at h
  exact tokenizeFuel_final_pos (utf8Len input + 1) input pos line ts p l hle h

/-- Shape of every emitted token's lexeme: never empty; punctuator and
unknown lexemes are single characters; operator lexemes have one or two
characters. -/
theorem tokenizeFuel_values (input : List Char) :
    ∀ (fuel : Nat) (pos line : Nat) (ts : List Token) (p l : Nat),
      tokenizeFuel fuel input pos line = some (ts, p, l) →
      ∀ t ∈ ts, t.value ≠ [] ∧
        ((t.token_type = TokenType.Punctuator ∨ t.token_type = TokenType.Unknown) → t.value.length = 1) ∧
        (t.token_type = TokenType.Operator → t.value.length = 1 ∨ t.value.length = 2) := by
  intro fuel
  induction fuel with
  | zero => intro pos line ts p l h; simp [tokenizeFuel] at h
  | succ n ih =>
    intro pos line ts p l h
    rw [tokenizeFuel] at h
    by_cases hp : pos < utf8Len input
    · rw [if_pos hp] at h
      cases hg : input[pos]? with
      | none => simp [hg] at h
      | some c =>
        simp only [hg] at h
        by_cases hws : is_whitespace c
        · simp only [hws, if_true] at h
          exact ih (pos + 1) _ ts p l h
        · simp only [hws, Bool.false_eq_true, if_false] at h
          by_cases ha : is_alpha c
          · simp only [ha, if_true] at h
            cases hw : getNextWordPosFuel (n + 1) input pos with
            | none => simp [hw] at h
            | some q =>
              simp only [hw] at h
              have hwr := getNextWordPosFuel_sound (n + 1) input pos q hw
              have hq1 : pos < q := getNextWordPos_gt input pos q c hp hg (is_alpha_alphanum ha) hwr
              cases hs : byteSlice input pos q with
              | none => simp [hs] at h
              | some word =>
                simp only [hs] at h
                rw [Option.map_eq_some'] at h
                obtain ⟨⟨ts2, p2, l2⟩, hrec, heq⟩ := h
                simp only [Prod.mk.injEq] at heq
                obtain ⟨rfl, rfl, rfl⟩ := heq
                intro t ht
                rcases List.mem_cons.mp ht with rfl | ht2
                · refine ⟨byteSlice_ne_nil hq1 hs, ?_, ?_⟩ <;>
                    · intro htt
                      cases hlk : List.lookup word keywords with
                      | none => simp only [hlk] at htt; simp at htt
                      | some tt =>
                        have := keywords_lookup_keyword hlk
                        subst this
                        simp only [hlk] at htt
                        simp at htt
                · exact ih q line ts2 p2 l2 hrec t ht2
          · simp only [ha, Bool.false_eq_true, if_false] at h
            by_cases hd : is_digit c
            · simp only [hd, if_true] at h
              cases hn2 : getNextNumberPosFuel (n + 1) input pos false with
              | none => simp [hn2] at h
              | some q =>
                simp only [hn2] at h
                have hnr := getNextNumberPosFuel_sound (n + 1) input pos false q hn2
                have hq1 : pos < q := getNextNumberPos_gt input pos q c hp hg hd hnr
                cases hs : byteSlice input pos q with
                | none => simp [hs] at h
                | some number =>
                  simp only [hs] at h
                  rw [Option.map_eq_some'] at h
                  obtain ⟨⟨ts2, p2, l2⟩, hrec, heq⟩ := h
                  simp only [Prod.mk.injEq] at heq
                  obtain ⟨rfl, rfl, rfl⟩ := heq
                  intro t ht
                  rcases List.mem_cons.mp ht with rfl | ht2
                  · refine ⟨byteSlice_ne_nil hq1 hs, ?_, ?_⟩ <;>
                      · intro htt
                        by_cases hdot : number.contains '.'
                        · simp only [hdot, if_true] at htt; simp at htt
                        · simp only [hdot, Bool.false_eq_true, if_false] at htt; simp at htt
                  · exact ih q line ts2 p2 l2 hrec t ht2
            · simp only [hd, Bool.false_eq_true, if_false] at h
              by_cases hop : isOperatorChar c
              · simp only [hop, if_true] at h
                by_cases h2 : pos + 1 < utf8Len input
                · rw [if_pos h2] at h
                  cases hg2 : input[pos + 1]? with
                  | none => simp [hg2] at h
                  | some c2 =>
                    simp only [hg2] at h
                    by_cases he : c2 = '='
                    · simp only [he, if_true] at h
                      rw [Option.map_eq_some'] at h
                      obtain ⟨⟨ts2, p2, l2⟩, hrec, heq⟩ := h
                      simp only [Prod.mk.injEq] at heq
                      obtain ⟨rfl, rfl, rfl⟩ := heq
                      intro t ht
                      rcases List.mem_cons.mp ht with rfl | ht2
                      · exact ⟨by simp, by simp, fun _ => Or.inr rfl⟩
                      · exact ih (pos + 2) line ts2 p2 l2 hrec t ht2
                    · simp only [he, if_false] at h
                      rw [Option.map_eq_some'] at h
                      obtain ⟨⟨ts2, p2, l2⟩, hrec, heq⟩ := h
                      simp only [Prod.mk.injEq] at heq
                      obtain ⟨rfl, rfl, rfl⟩ := heq
                      intro t ht
                      rcases List.mem_cons.mp ht with rfl | ht2
                      · exact ⟨by simp, by simp, fun _ => Or.inl rfl⟩
                      · exact ih (pos + 1) line ts2 p2 l2 hrec t ht2
                · rw [if_neg h2] at h
                  rw [Option.map_eq_some'] at h
                  obtain ⟨⟨ts2, p2, l2⟩, hrec, heq⟩ := h
                  simp only [Prod.mk.injEq] at heq
                  obtain ⟨rfl, rfl, rfl⟩ := heq
                  intro t ht
                  rcases List.mem_cons.mp ht with rfl | ht2
                  · exact ⟨by simp, by simp, fun _ => Or.inl rfl⟩
                  · exact ih (pos + 1) line ts2 p2 l2 hrec t ht2
              · simp only [hop, Bool.false_eq_true, if_false] at h
                by_cases hpu : isPunctuatorChar c
                · simp only [hpu, if_true] at h
                  rw [Option.map_eq_some'] at h
                  obtain ⟨⟨ts2, p2, l2⟩, hrec, heq⟩ := h
                  simp only [Prod.mk.injEq] at heq
                  obtain ⟨rfl, rfl, rfl⟩ := heq
                  intro t ht
                  rcases List.mem_cons.mp ht with rfl | ht2
                  · exact ⟨by simp, fun _ => by simp, by simp⟩
                  · exact ih (pos + 1) line ts2 p2 l2 hrec t ht2
                · simp only [hpu, Bool.false_eq_true, if_false] at h
                  rw [Option.map_eq_some'] at h
                  obtain ⟨⟨ts2, p2, l2⟩, hrec, heq⟩ := h
                  simp only [Prod.mk.injEq] at heq
                  obtain ⟨rfl, rfl, rfl⟩ := heq
                  intro t ht
                  rcases List.mem_cons.mp ht with rfl | ht2
                  · exact ⟨by simp, fun _ => by simp, by simp⟩
                  · exact ih (pos + 1) line ts2 p2 l2 hrec t ht2
    · rw [if_neg hp] at h
      simp only [Option.some.injEq, Prod.mk.injEq] at h
      obtain ⟨rfl, rfl, rfl⟩ := h
      intro t ht
      simp at ht

theorem tokenizeAux_values (input : List Char) (pos line : Nat) (ts : List Token) (p l : Nat)
    (h : tokenizeAux input pos line = some (ts, p, l)) :
    ∀ t ∈ ts, t.value ≠ [] ∧
      ((t.token_type = TokenType.Punctuator ∨ t.token_type = TokenType.Unknown) → t.value.length = 1) ∧
      (t.token_type = TokenType.Operator → t.value.length = 1 ∨ t.value.length = 2) := by
  rw [tokenizeAux_eq_fullFuel] at h
  exact tokenizeFuel_values input (utf8Len input + 1) pos line ts p l h

/-- For ASCII input: the emitted lexemes, concatenated in order, are exactly
the input minus the skipped whitespace; and the final line counter is the
initial one plus the number of newline characters from the cursor on. -/
theorem tokenizeFuel_ascii_spec (input : List Char) (hA : AsciiInput input) :
    ∀ (fuel pos line : Nat) (ts : List Token) (p l : Nat),
      tokenizeFuel fuel input pos line = some (ts, p, l) →
      (ts.map Token.value).flatten = (input.drop pos).filter (fun c => !is_whitespace c) ∧
        l = line + (input.drop pos).count '\n' := by
  have hLen : utf8Len input = input.length := utf8Len_ascii hA
  intro fuel
  induction fuel with
  | zero => intro pos line ts p l h; simp [tokenizeFuel] at h
  | succ n ih =>
    intro pos line ts p l h
    rw [tokenizeFuel] at h
    by_cases hp : pos < utf8Len input
    · rw [if_pos hp] at h
      cases hg : input[pos]? with
      | none => simp [hg] at h
      | some c =>
        have hdc := drop_cons_at hg
        simp only [hg] at h
        by_cases hws : is_whitespace c
        · simp only [hws, if_true] at h
          obtain ⟨ih1, ih2⟩ := ih (pos + 1) _ ts p l h
          constructor
          · rw [ih1, hdc, List.filter_cons]
            simp [hws]
          · rw [hdc, List.count_cons, ih2]
            by_cases hnl : c = '\n'
            · subst hnl; simp; omega
            · simp only [hnl, if_true, if_false]
              have : (c == '\n') = false := by simp [hnl]
              rw [this]
              simp
        · have hws' : is_whitespace c = false := by simpa using hws
          simp only [hws, Bool.false_eq_true, if_false] at h
          by_cases ha : is_alpha c
          · simp only [ha, if_true] at h
            cases hw : getNextWordPosFuel (n + 1) input pos with
            | none => simp [hw] at h
            | some q =>
              simp only [hw] at h
              have hwr := getNextWordPosFuel_sound (n + 1) input pos q hw
              have hq1 : pos < q := getNextWordPos_gt input pos q c hp hg (is_alpha_alphanum ha) hwr
              have hq2 : q ≤ utf8Len input := getNextWordPos_le input pos q (by omega) hwr
              cases hs : byteSlice input pos q with
              | none => simp [hs] at h
              | some word =>
                simp only [hs] at h
                rw [Option.map_eq_some'] at h
                obtain ⟨⟨ts2, p2, l2⟩, hrec, heq⟩ := h
                simp only [Prod.mk.injEq] at heq
                obtain ⟨rfl, rfl, rfl⟩ := heq
                obtain ⟨ih1, ih2⟩ := ih q line ts2 p2 l2 hrec
                have hword : word = (input.drop pos).take (q - pos) := by
                  have hbs := byteSlice_ascii hA (le_of_lt hq1) (by omega)
                  rw [hbs] at hs
                  exact (Option.some.inj hs).symm
                have hsplit : input.drop pos = word ++ input.drop q := by
                  rw [hword]; exact drop_split (le_of_lt hq1)
                have hwchars : ∀ x ∈ word, is_alphanum x = true := by
                  intro x hx
                  rw [hword] at hx
                  obtain ⟨i, hi1, hi2, hig⟩ := mem_take_drop hx
                  obtain ⟨hsound, _⟩ := getNextWordPos_sound input pos q hwr
                  obtain ⟨c2, hc2g, hc2a⟩ := hsound i hi1 (by omega)
                  rw [hig] at hc2g
                  rwa [← Option.some.inj hc2g] at hc2a
                constructor
                · simp only [List.map_cons, List.flatten_cons]
                  rw [ih1, hsplit, List.filter_append]
                  congr 1
                  exact (List.filter_eq_self.mpr
                    (fun a haa => by simp [alphanum_not_ws (hwchars a haa)])).symm
                · rw [hsplit, List.count_append, ih2]
                  have hcz : word.count '\n' = 0 :=
                    List.count_eq_zero.mpr (fun hmem => (alphanum_ne_nl (hwchars _ hmem)) rfl)
                  omega
          · simp only [ha, Bool.false_eq_true, if_false] at h
            by_cases hd : is_digit c
            · simp only [hd, if_true] at h
              cases hn2 : getNextNumberPosFuel (n + 1) input pos false with
              | none => simp [hn2] at h
              | some q =>
                simp only [hn2] at h
                have hnr := getNextNumberPosFuel_sound (n + 1) input pos false q hn2
                have hq1 : pos < q := getNextNumberPos_gt input pos q c hp hg hd hnr
                have hq2 : q ≤ utf8Len input := getNextNumberPos_le input pos false q (by omega) hnr
                cases hs : byteSlice input pos q with
                | none => simp [hs] at h
                | some number =>
                  simp only [hs] at h
                  rw [Option.map_eq_some'] at h
                  obtain ⟨⟨ts2, p2, l2⟩, hrec, heq⟩ := h
                  simp only [Prod.mk.injEq] at heq
                  obtain ⟨rfl, rfl, rfl⟩ := heq
                  obtain ⟨ih1, ih2⟩ := ih q line ts2 p2 l2 hrec
                  have hword : number = (input.drop pos).take (q - pos) := by
                    have hbs := byteSlice_ascii hA (le_of_lt hq1) (by omega)
                    rw [hbs] at hs
                    exact (Option.some.inj hs).symm
                  have hsplit : input.drop pos = number ++ input.drop q := by
                    rw [hword]; exact drop_split (le_of_lt hq1)
                  have hwchars : ∀ x ∈ number, x = '.' ∨ is_digit x = true := by
                    intro x hx
                    rw [hword] at hx
                    obtain ⟨i, hi1, hi2, hig⟩ := mem_take_drop hx
                    have hsound := getNextNumberPos_sound input pos false q hnr
                    obtain ⟨c2, hc2g, hc2a⟩ := hsound i hi1 (by omega)
                    rw [hig] at hc2g
                    rwa [← Option.some.inj hc2g] at hc2a
                  constructor
                  · simp only [List.map_cons, List.flatten_cons]
                    rw [ih1, hsplit, List.filter_append]
                    congr 1
                    exact (List.filter_eq_self.mpr
                      (fun a haa => by simp [digit_or_dot_not_ws (hwchars a haa)])).symm
                  · rw [hsplit, List.count_append, ih2]
                    have hcz : number.count '\n' = 0 :=
                      List.count_eq_zero.mpr (fun hmem => (digit_or_dot_ne_nl (hwchars _ hmem)) rfl)
                    omega
            · simp only [hd, Bool.false_eq_true, if_false] at h
              have hcnl : c ≠ '\n' := fun hc => by rw [hc] at hws'; simp [is_whitespace] at hws'
              have hcnlb : (c == '\n') = false := by simp [hcnl]
              by_cases hop : isOperatorChar c
              · simp only [hop, if_true] at h
                by_cases h2 : pos + 1 < utf8Len input
                · rw [if_pos h2] at h
                  cases hg2 : input[pos + 1]? with
                  | none => simp [hg2] at h
                  | some c2 =>
                    have hdc2 := drop_cons_at hg2
                    simp only [hg2] at h
                    by_cases he : c2 = '='
                    · subst he
                      simp only [if_true] at h
                      rw [Option.map_eq_some'] at h
                      obtain ⟨⟨ts2, p2, l2⟩, hrec, heq⟩ := h
                      simp only [Prod.mk.injEq] at heq
                      obtain ⟨rfl, rfl, rfl⟩ := heq
                      obtain ⟨ih1, ih2⟩ := ih (pos + 2) line ts2 p2 l2 hrec
                      constructor
                      · simp only [List.map_cons, List.flatten_cons]
                        rw [ih1, hdc, hdc2]
                        simp only [List.filter_cons, hws']
                        simp [is_whitespace]
                      · rw [hdc, hdc2, List.count_cons, List.count_cons, ih2]
                        rw [hcnlb]
                        simp
                    · simp only [he, if_false] at h
                      rw [Option.map_eq_some'] at h
                      obtain ⟨⟨ts2, p2, l2⟩, hrec, heq⟩ := h
                      simp only [Prod.mk.injEq] at heq
                      obtain ⟨rfl, rfl, rfl⟩ := heq
                      obtain ⟨ih1, ih2⟩ := ih (pos + 1) line ts2 p2 l2 hrec
                      constructor
                      · simp only [List.map_cons, List.flatten_cons]
                        rw [ih1, hdc]
                        simp [List.filter_cons, hws']
                      · rw [hdc, List.count_cons, ih2, hcnlb]
                        simp
                · rw [if_neg h2] at h
                  rw [Option.map_eq_some'] at h
                  obtain ⟨⟨ts2, p2, l2⟩, hrec, heq⟩ := h
                  simp only [Prod.mk.injEq] at heq
                  obtain ⟨rfl, rfl, rfl⟩ := heq
                  obtain ⟨ih1, ih2⟩ := ih (pos + 1) line ts2 p2 l2 hrec
                  constructor
                  · simp only [List.map_cons, List.flatten_cons]
                    rw [ih1, hdc]
                    simp [List.filter_cons, hws']
                  · rw [hdc, List.count_cons, ih2, hcnlb]
                    simp
              · simp only [hop, Bool.false_eq_true, if_false] at h
                by_cases hpu : isPunctuatorChar c
                · simp only [hpu, if_true] at h
                  rw [Option.map_eq_some'] at h
                  obtain ⟨⟨ts2, p2, l2⟩, hrec, heq⟩ := h
                  simp only [Prod.mk.injEq] at heq
                  obtain ⟨rfl, rfl, rfl⟩ := heq
                  obtain ⟨ih1, ih2⟩ := ih (pos + 1) line ts2 p2 l2 hrec
                  constructor
                  · simp only [List.map_cons, List.flatten_cons]
                    rw [ih1, hdc]
                    simp [List.filter_cons, hws']
                  · rw [hdc, List.count_cons, ih2, hcnlb]
                    simp
                · simp only [hpu, Bool.false_eq_true, if_false] at h
                  rw [Option.map_eq_some'] at h
                  obtain ⟨⟨ts2, p2, l2⟩, hrec, heq⟩ := h
                  simp only [Prod.mk.injEq] at heq
                  obtain ⟨rfl, rfl, rfl⟩ := heq
                  obtain ⟨ih1, ih2⟩ := ih (pos + 1) line ts2 p2 l2 hrec
                  constructor
                  · simp only [List.map_cons, List.flatten_cons]
                    rw [ih1, hdc]
                    simp [List.filter_cons, hws']
                  · rw [hdc, List.count_cons, ih2, hcnlb]
                    simp
    · rw [if_neg hp] at h
      simp only [Option.some.injEq, Prod.mk.injEq] at h
      obtain ⟨rfl, rfl, rfl⟩ := h
      have hdz : input.drop pos = [] := List.drop_eq_nil_of_le (by omega)
      rw [hdz]
      simp

theorem tokenizeAux_ascii_spec (input : List Char) (hA : AsciiInput input)
    (pos line : Nat) (ts : List Token) (p l : Nat)
    (h : tokenizeAux input pos line = some (ts, p, l)) :
    (ts.map Token.value).flatten = (input.drop pos).filter (fun c => !is_whitespace c) ∧
      l = line + (input.drop pos).count '\n' := by
  rw [tokenizeAux_eq_fullFuel] at h
  exact tokenizeFuel_ascii_spec input hA (utf8Len input + 1) pos line ts p l h

/-- For ASCII input the scan never panics: with enough fuel it produces a
result. -/
theorem tokenizeFuel_ascii_some (input : List Char) (hA : AsciiInput input) :
    ∀ (fuel pos line : Nat), utf8Len input - pos < fuel → pos ≤ input.length →
      ∃ r, tokenizeFuel fuel input pos line = some r := by
  have hLen : utf8Len input = input.length := utf8Len_ascii hA
  intro fuel
  induction fuel with
  | zero => intro pos line hfuel hle; omega
  | succ n ih =>
    intro pos line hfuel hle
    by_cases hp : pos < utf8Len input
    · obtain ⟨c, hg⟩ := getElem_some_of_lt input pos (by omega)
      rw [tokenizeFuel, if_pos hp]
      simp only [hg]
      by_cases hws : is_whitespace c
      · simp only [hws, if_true]
        exact ih (pos + 1) _ (by omega) (by omega)
      · simp only [hws, Bool.false_eq_true, if_false]
        by_cases ha : is_alpha c
        · simp only [ha, if_true]
          rw [getNextWordPosFuel_eq input (n + 1) pos (by omega)]
          obtain ⟨q, hq⟩ := getNextWordPos_ascii_some hA pos (by omega)
          have hq1 : pos < q := getNextWordPos_gt input pos q c hp hg (is_alpha_alphanum ha) hq
          have hq2 : q ≤ utf8Len input := getNextWordPos_le input pos q (by omega) hq
          rw [hq]
          simp only []
          rw [byteSlice_ascii hA (le_of_lt hq1) (by omega)]
          obtain ⟨r, hr⟩ := ih q line (by omega) (by omega)
          exact ⟨_, by rw [hr]; rfl⟩
        · simp only [ha, Bool.false_eq_true, if_false]
          by_cases hd : is_digit c
          · simp only [hd, if_true]
            rw [getNextNumberPosFuel_eq input (n + 1) pos false (by omega)]
            obtain ⟨q, hq⟩ := getNextNumberPos_ascii_some hA pos false (by omega)
            have hq1 : pos < q := getNextNumberPos_gt input pos q c hp hg hd hq
            have hq2 : q ≤ utf8Len input := getNextNumberPos_le input pos false q (by omega) hq
            rw [hq]
            simp only []
            rw [byteSlice_ascii hA (le_of_lt hq1) (by omega)]
            obtain ⟨r, hr⟩ := ih q line (by omega) (by omega)
            exact ⟨_, by rw [hr]; rfl⟩
          · simp only [hd, Bool.false_eq_true, if_false]
            by_cases hop : isOperatorChar c
            · simp only [hop, if_true]
              by_cases h2 : pos + 1 < utf8Len input
              · rw [if_pos h2]
                obtain ⟨c2, hg2⟩ := getElem_some_of_lt input (pos + 1) (by omega)
                simp only [hg2]
                by_cases he : c2 = '='
                · simp only [he, if_true]
                  obtain ⟨r, hr⟩ := ih (pos + 2) line (by omega) (by omega)
                  exact ⟨_, by rw [hr]; rfl⟩
                · simp only [he, if_false]
                  obtain ⟨r, hr⟩ := ih (pos + 1) line (by omega) (by omega)
                  exact ⟨_, by rw [hr]; rfl⟩
              · rw [if_neg h2]
                obtain ⟨r, hr⟩ := ih (pos + 1) line (by omega) (by omega)
                exact ⟨_, by rw [hr]; rfl⟩
            · simp only [hop, Bool.false_eq_true, if_false]
              by_cases hpu : isPunctuatorChar c
              · simp only [hpu, if_true]
                obtain ⟨r, hr⟩ := ih (pos + 1) line (by omega) (by omega)
                exact ⟨_, by rw [hr]; rfl⟩
              · simp only [hpu, Bool.false_eq_true, if_false]
                obtain ⟨r, hr⟩ := ih (pos + 1) line (by omega) (by omega)
                exact ⟨_, by rw [hr]; rfl⟩
    · exact ⟨([], pos, line), by rw [tokenizeFuel, if_neg hp]⟩

/-- For ASCII input the scan completes, ends with the cursor at the input
length, and covers the input. -/
theorem tokenizeAux_ascii_total (input : List Char) (hA : AsciiInput input)
    (pos line : Nat) (hle : pos ≤ input.length) :
    ∃ ts l2, tokenizeAux input pos line = some (ts, input.length, l2) := by
  have hLen : utf8Len input = input.length := utf8Len_ascii hA
  obtain ⟨⟨ts, p, l2⟩, hr⟩ :=
    tokenizeFuel_ascii_some input hA (utf8Len input + 1) pos line (by omega) hle
  have hr2 : tokenizeAux input pos line = some (ts, p, l2) := by
    rw [tokenizeAux_eq_fullFuel]; exact hr
  have := tokenizeAux_final_pos input pos line ts p l2 (by omega) hr2
  exact ⟨ts, l2, by rw [hr2, this.2, hLen]⟩

theorem opChar_mem {c : Char} (h : isOperatorChar c = true) :
    c = '+' ∨ c = '-' ∨ c = '*' ∨ c = '/' ∨ c = '=' ∨ c = '!' ∨ c = '<' ∨ c = '>' := by
  simp only [isOperatorChar, List.contains, List.elem_eq_mem, decide_eq_true_eq] at h
  simpa using h

theorem opChar_not_others {c : Char} (h : isOperatorChar c = true) :
    is_whitespace c = false ∧ is_alpha c = false ∧ is_digit c = false := by
  rcases opChar_mem h with rfl | rfl | rfl | rfl | rfl | rfl | rfl | rfl <;> exact ⟨by decide, by decide, by decide⟩

theorem tokenizeAux_ws_step (input : List Char) (pos line : Nat) (c : Char)
    (hp : pos < utf8Len input) (hg : input[pos]? = some c) (hws : is_whitespace c = true) :
    tokenizeAux input pos line =
      tokenizeAux input (pos + 1) (if c = '\n' then line + 1 else line) := by
  rw [tokenizeAux_eq_fullFuel input pos line, tokenizeFuel, if_pos hp]
  simp only [hg, hws, if_true]
  exact tokenizeFuel_eq input (utf8Len input) (pos + 1) _ (by omega)

theorem tokenizeAux_word_step (input : List Char) (pos line : Nat) (c : Char) (q : Nat) (word : List Char)
    (hp : pos < utf8Len input) (hg : input[pos]? = some c)
    (ha : is_alpha c = true)
    (hw : getNextWordPos input pos = some q) (hs : byteSlice input pos q = some word) :
    tokenizeAux input pos line =
      (tokenizeAux input q line).map
        (fun r => (⟨(match List.lookup word keywords with
                      | some t => t
                      | none => TokenType.Identifier), word, line⟩ :: r.1, r.2)) := by
  have hws : is_whitespace c = false := alphanum_not_ws (is_alpha_alphanum ha)
  have hq1 : pos < q := getNextWordPos_gt input pos q c hp hg (is_alpha_alphanum ha) hw
  rw [tokenizeAux_eq_fullFuel input pos line, tokenizeFuel, if_pos hp]
  simp only [hg, hws, Bool.false_eq_true, if_false, ha, if_true]
  rw [getNextWordPosFuel_eq input (utf8Len input + 1) pos (by omega), hw]
  simp only []
  rw [hs]
  simp only []
  rw [tokenizeFuel_eq input (utf8Len input) q line (by omega)]

theorem tokenizeAux_op_step_compound (input : List Char) (pos line : Nat) (c : Char)
    (hp : pos < utf8Len input) (hg : input[pos]? = some c) (hop : isOperatorChar c = true)
    (h2 : pos + 1 < utf8Len input) (hg2 : input[pos + 1]? = some '=') :
    tokenizeAux input pos line =
      (tokenizeAux input (pos + 2) line).map
        (fun r => (⟨TokenType.Operator, [c, '='], line⟩ :: r.1, r.2)) := by
  obtain ⟨hws, ha, hd⟩ := opChar_not_others hop
  rw [tokenizeAux_eq_fullFuel input pos line, tokenizeFuel, if_pos hp]
  simp only [hg, hws, Bool.false_eq_true, if_false, ha, hd, hop, if_true, if_pos h2, hg2]
  rw [tokenizeFuel_eq input (utf8Len input) (pos + 2) line (by omega)]

theorem tokenizeAux_op_step_single (input : List Char) (pos line : Nat) (c c2 : Char)
    (hp : pos < utf8Len input) (hg : input[pos]? = some c) (hop : isOperatorChar c = true)
    (h2 : pos + 1 < utf8Len input) (hg2 : input[pos + 1]? = some c2) (hne : c2 ≠ '=') :
    tokenizeAux input pos line =
      (tokenizeAux input (pos + 1) line).map
        (fun r => (⟨TokenType.Operator, [c], line⟩ :: r.1, r.2)) := by
  obtain ⟨hws, ha, hd⟩ := opChar_not_others hop
  rw [tokenizeAux_eq_fullFuel input pos line, tokenizeFuel, if_pos hp]
  simp only [hg, hws, Bool.false_eq_true, if_false, ha, hd, hop, if_true, if_pos h2, hg2, hne]
  rw [tokenizeFuel_eq input (utf8Len input) (pos + 1) line (by omega)]

theorem tokenizeAux_op_step_last (input : List Char) (pos line : Nat) (c : Char)
    (hp : pos < utf8Len input) (hg : input[pos]? = some c) (hop : isOperatorChar c = true)
    (h2 : ¬pos + 1 < utf8Len input) :
    tokenizeAux input pos line =
      (tokenizeAux input (pos + 1) line).map
        (fun r => (⟨TokenType.Operator, [c], line⟩ :: r.1, r.2)) := by
  obtain ⟨hws, ha, hd⟩ := opChar_not_others hop
  rw [tokenizeAux_eq_fullFuel input pos line, tokenizeFuel, if_pos hp]
  simp only [hg, hws, Bool.false_eq_true, if_false, ha, hd, hop, if_true, if_neg h2]
  rw [tokenizeFuel_eq input (utf8Len input) (pos + 1) line (by omega)]

theorem tokenizeAux_unknown_step (input : List Char) (pos line : Nat) (c : Char)
    (hp : pos < utf8Len input) (hg : input[pos]? = some c)
    (hws : is_whitespace c = false) (ha : is_alpha c = false) (hd : is_digit c = false)
    (hop : isOperatorChar c = false) (hpu : isPunctuatorChar c = false) :
    tokenizeAux input pos line =
      (tokenizeAux input (pos + 1) line).map
        (fun r => (⟨TokenType.Unknown, [c], line⟩ :: r.1, r.2)) := by
  rw [tokenizeAux_eq_fullFuel input pos line, tokenizeFuel, if_pos hp]
  simp only [hg, hws, Bool.false_eq_true, if_false, ha, hd, hop, hpu]
  rw [tokenizeFuel_eq input (utf8Len input) (pos + 1) line (by omega)]

theorem getNextNumberPos_second_dot (input : List Char) (pos : Nat)
    (hp : pos < utf8Len input) (hg : input[pos]? = some '.') :
    getNextNumberPos input pos true = some pos := by
  rw [getNextNumberPos, dif_pos hp]
  simp [hg]

theorem srcTokenizeFuel_eq (input : List Char) :
    ∀ (fuel pos : Nat), utf8Len input - pos < fuel →
      SrcLexer.tokenizeFuel fuel input pos = SrcLexer.tokenizeAux input pos := by
  intro fuel
  induction fuel with
  | zero => intro pos h; omega
  | succ n ih =>
    intro pos h
    rw [SrcLexer.tokenizeAux, SrcLexer.tokenizeFuel]
    by_cases hp : pos < utf8Len input
    · simp only [hp, if_true, dif_pos]
      cases hg : input[pos]? with
      | none => rfl
      | some c =>
        by_cases hws : is_whitespace c
        · simp only [hws, if_true]
          exact ih (pos + 1) (by omega)
        · simp only [hws, Bool.false_eq_true, if_false, dite_eq_ite]
          by_cases ha : is_alpha c
          · simp only [ha, if_true, dif_pos]
            rw [getNextWordPosFuel_eq input (n + 1) pos (by omega)]
            cases hw : getNextWordPos input pos with
            | none => rfl
            | some q =>
              have hq : pos < q := getNextWordPos_gt input pos q c hp hg (is_alpha_alphanum ha) hw
              simp only []
              cases hs : byteSlice input pos q with
              | none => rfl
              | some word =>
                simp only []
                rw [ih q (by omega)]
          · simp only [ha, Bool.false_eq_true, if_false, dite_eq_ite]
            by_cases hd : is_digit c
            · simp only [hd, if_true, dif_pos]
              rw [getNextNumberPosFuel_eq input (n + 1) pos false (by omega)]
              cases hn : getNextNumberPos input pos false with
              | none => rfl
              | some q =>
                have hq : pos < q := getNextNumberPos_gt input pos q c hp hg hd hn
                simp only []
                cases hs : byteSlice input pos q with
                | none => rfl
                | some number =>
                  simp only []
                  rw [ih q (by omega)]
            · simp only [hd, Bool.false_eq_true, if_false, dite_eq_ite]
              by_cases hop : SrcLexer.isOperatorChar c
              · simp only [hop, if_true]
                rw [ih (pos + 1) (by omega)]
              · simp only [hop, Bool.false_eq_true, if_false]
                by_cases hpu : isPunctuatorChar c
                · simp only [hpu, if_true]
                  rw [ih (pos + 1) (by omega)]
                · simp only [hpu, Bool.false_eq_true, if_false]
                  rw [ih (pos + 1) (by omega)]
    · rw [if_neg hp, dif_neg hp]

theorem srcTokenizeAux_eq_fullFuel (input : List Char) (pos : Nat) :
    SrcLexer.tokenizeAux input pos = SrcLexer.tokenizeFuel (utf8Len input + 1) input pos :=
  (srcTokenizeFuel_eq input (utf8Len input + 1) pos (by omega)).symm

/-- In the `src/lexer.rs` variant every operator lexeme is a single
character, and the other shape facts match the main scanner. -/
theorem srcTokenizeFuel_values (input : List Char) :
    ∀ (fuel pos : Nat) (ts : List SrcLexer.Token),
      SrcLexer.tokenizeFuel fuel input pos = some ts →
      ∀ t ∈ ts, t.value ≠ [] ∧
        ((t.token_type = TokenType.Punctuator ∨ t.token_type = TokenType.Unknown) → t.value.length = 1) ∧
        (t.token_type = TokenType.Operator → t.value.length = 1) := by
  intro fuel
  induction fuel with
  | zero => intro pos ts h; simp [SrcLexer.tokenizeFuel] at h
  | succ n ih =>
    intro pos ts h
    rw [SrcLexer.tokenizeFuel] at h
    by_cases hp : pos < utf8Len input
    · rw [if_pos hp] at h
      cases hg : input[pos]? with
      | none => simp [hg] at h
      | some c =>
        simp only [hg] at h
        by_cases hws : is_whitespace c
        · simp only [hws, if_true] at h
          exact ih (pos + 1) ts h
        · simp only [hws, Bool.false_eq_true, if_false] at h
          by_cases ha : is_alpha c
          · simp only [ha, if_true] at h
            cases hw : getNextWordPosFuel (n + 1) input pos with
            | none => simp [hw] at h
            | some q =>
              simp only [hw] at h
              have hwr := getNextWordPosFuel_sound (n + 1) input pos q hw
              have hq1 : pos < q := getNextWordPos_gt input pos q c hp hg (is_alpha_alphanum ha) hwr
              cases hs : byteSlice input pos q with
              | none => simp [hs] at h
              | some word =>
                simp only [hs] at h
                rw [Option.map_eq_some'] at h
                obtain ⟨ts2, hrec, rfl⟩ := h
                intro t ht
                rcases List.mem_cons.mp ht with rfl | ht2
                · refine ⟨byteSlice_ne_nil hq1 hs, ?_, ?_⟩ <;>
                    · intro htt
                      cases hlk : List.lookup word keywords with
                      | none => simp only [hlk, Option.getD] at htt; simp at htt
                      | some tt =>
                        have := keywords_lookup_keyword hlk
                        subst this
                        simp only [hlk, Option.getD] at htt
                        simp at htt
                · exact ih q ts2 hrec t ht2
          · simp only [ha, Bool.false_eq_true, if_false] at h
            by_cases hd : is_digit c
            · simp only [hd, if_true] at h
              cases hn2 : getNextNumberPosFuel (n + 1) input pos false with
              | none => simp [hn2] at h
              | some q =>
                simp only [hn2] at h
                have hnr := getNextNumberPosFuel_sound (n + 1) input pos false q hn2
                have hq1 : pos < q := getNextNumberPos_gt input pos q c hp hg hd hnr
                cases hs : byteSlice input pos q with
                | none => simp [hs] at h
                | some number =>
                  simp only [hs] at h
                  rw [Option.map_eq_some'] at h
                  obtain ⟨ts2, hrec, rfl⟩ := h
                  intro t ht
                  rcases List.mem_cons.mp ht with rfl | ht2
                  · refine ⟨byteSlice_ne_nil hq1 hs, ?_, ?_⟩ <;>
                      · intro htt
                        by_cases hdot : number.contains '.'
                        · simp only [hdot, if_true] at htt; simp at htt
                        · simp only [hdot, Bool.false_eq_true, if_false] at htt; simp at htt
                  · exact ih q ts2 hrec t ht2
            · simp only [hd, Bool.false_eq_true, if_false] at h
              by_cases hop : SrcLexer.isOperatorChar c
              · simp only [hop, if_true] at h
                rw [Option.map_eq_some'] at h
                obtain ⟨ts2, hrec, rfl⟩ := h
                intro t ht
                rcases List.mem_cons.mp ht with rfl | ht2
                · exact ⟨by simp, by simp, fun _ => rfl⟩
                · exact ih (pos + 1) ts2 hrec t ht2
              · simp only [hop, Bool.false_eq_true, if_false] at h
                by_cases hpu : isPunctuatorChar c
                · simp only [hpu, if_true] at h
                  rw [Option.map_eq_some'] at h
                  obtain ⟨ts2, hrec, rfl⟩ := h
                  intro t ht
                  rcases List.mem_cons.mp ht with rfl | ht2
                  · exact ⟨by simp, fun _ => by simp, by simp⟩
                  · exact ih (pos + 1) ts2 hrec t ht2
                · simp only [hpu, Bool.false_eq_true, if_false] at h
                  rw [Option.map_eq_some'] at h
                  obtain ⟨ts2, hrec, rfl⟩ := h
                  intro t ht
                  rcases List.mem_cons.mp ht with rfl | ht2
                  · exact ⟨by simp, fun _ => by simp, by simp⟩
                  · exact ih (pos + 1) ts2 hrec t ht2
    · rw [if_neg hp] at h
      simp only [Option.some.injEq] at h
      subst h
      intro t ht
      simp at ht

theorem srcTokenizeAux_values (input : List Char) (pos : Nat) (ts : List SrcLexer.Token)
    (h : SrcLexer.tokenizeAux input pos = some ts) :
    ∀ t ∈ ts, t.value ≠ [] ∧
      ((t.token_type = TokenType.Punctuator ∨ t.token_type = TokenType.Unknown) → t.value.length = 1) ∧
      (t.token_type = TokenType.Operator → t.value.length = 1) := by
  rw [srcTokenizeAux_eq_fullFuel] at h
  exact srcTokenizeFuel_values input (utf8Len input + 1) pos ts h

/-- C1: Each of the characters `+ - * / = ! < >` at a dispatch position is
consumed as an `Operator` token, and if the immediately following character
is `=` it is consumed too, forming a two-character compound operator; in
particular scanning `"=="` yields exactly one `Operator` token with lexeme
`"=="` (not two), and scanning `"="` alone yields `Operator("=")`. -/
theorem operator_compound_greediness :
    (∀ (input : List Char) (pos line : Nat) (c : Char),
        pos < utf8Len input → input[pos]? = some c → isOperatorChar c = true →
        pos + 1 < utf8Len input → input[pos + 1]? = some '=' →
        tokenizeAux input pos line =
          (tokenizeAux input (pos + 2) line).map
            (fun r => (⟨TokenType.Operator, [c, '='], line⟩ :: r.1, r.2))) ∧
    (∀ (input : List Char) (pos line : Nat) (c c2 : Char),
        pos < utf8Len input → input[pos]? = some c → isOperatorChar c = true →
        pos + 1 < utf8Len input → input[pos + 1]? = some c2 → c2 ≠ '=' →
        tokenizeAux input pos line =
          (tokenizeAux input (pos + 1) line).map
            (fun r => (⟨TokenType.Operator, [c], line⟩ :: r.1, r.2))) ∧
    (∀ (input : List Char) (pos line : Nat) (c : Char),
        pos < utf8Len input → input[pos]? = some c → isOperatorChar c = true →
        ¬pos + 1 < utf8Len input →
        tokenizeAux input pos line =
          (tokenizeAux input (pos + 1) line).map
            (fun r => (⟨TokenType.Operator, [c], line⟩ :: r.1, r.2))) ∧
    tokenize "==" = some [⟨TokenType.Operator, ['=', '='], 1⟩] ∧
    tokenize "=" = some [⟨TokenType.Operator, ['='], 1⟩] := by
  refine ⟨?_, ?_, ?_, ?_, ?_⟩
  · intro input pos line c hp hg hop h2 hg2
    exact tokenizeAux_op_step_compound input pos line c hp hg hop h2 hg2
  · intro input pos line c c2 hp hg hop h2 hg2 hne
    exact tokenizeAux_op_step_single input pos line c c2 hp hg hop h2 hg2 hne
  · intro input pos line c hp hg hop h2
    exact tokenizeAux_op_step_last input pos line c hp hg hop h2
  · rw [tokenize_eq_fuel]; rfl
  · rw [tokenize_eq_fuel]; rfl

/-- C1 witness: the compound-operator dispatch applied to the input `"=="`
at position 0. -/
theorem operator_compound_greediness_witness :
    tokenizeAux "==".toList 0 1 =
      (tokenizeAux "==".toList 2 1).map
        (fun r => (⟨TokenType.Operator, ['=', '='], 1⟩ :: r.1, r.2)) :=
  operator_compound_greediness.1 "==".toList 0 1 '='
    (by decide) (by decide) (by decide) (by decide) (by decide)

set_option maxRecDepth 4000 in
/-- C2 counterexample: the claim promises that every finite input is
scanned without failure, but on the one-character non-ASCII input `"é"`
(two UTF-8 bytes) the loop guard `position < input.len()` still holds at
`position = 1` while `chars().nth(1)` is `None`, so the Rust scanner panics
on the `unwrap`; the embedding returns `none` instead of a token sequence. -/
theorem scan_panics_on_non_ascii : tokenize "é" = none := by
  rw [tokenize_eq_fuel]; rfl

/-- C2 (amended): for every ASCII input (each character one UTF-8 byte),
`tokenize` terminates without error and returns a token sequence covering
the input — the lexemes concatenated in order are exactly the input minus
the skipped whitespace. -/
theorem scan_total_on_ascii (src : List Char) (hA : AsciiInput src) :
    ∃ ts a2, (LexicalAnalyzer.new src).tokenize = some (ts, a2) ∧
      (ts.map Token.value).flatten = src.filter (fun c => !is_whitespace c) := by
  obtain ⟨ts, l2, h⟩ := tokenizeAux_ascii_total src hA 0 1 (by omega)
  refine ⟨ts, ⟨src, src.length, l2⟩, ?_, ?_⟩
  · unfold LexicalAnalyzer.tokenize LexicalAnalyzer.new
    rw [h]
    rfl
  · have := (tokenizeAux_ascii_spec src hA 0 1 ts src.length l2 h).1
    simpa using this

/-- C2 witness: totality and coverage at the concrete ASCII input
`"agar x = 1;"`. -/
theorem scan_total_on_ascii_witness :
    ∃ ts a2, (LexicalAnalyzer.new "agar x = 1;".toList).tokenize = some (ts, a2) ∧
      (ts.map Token.value).flatten =
        "agar x = 1;".toList.filter (fun c => !is_whitespace c) :=
  scan_total_on_ascii "agar x = 1;".toList (by unfold AsciiInput; decide)

set_option maxRecDepth 4000 in
/-- C3: scanning `"3.14.5"` yields exactly `FloatLiteral("3.14")`,
`Unknown(".")`, `IntegerLiteral("5")`; and in the number scan a second `.`
terminates the lexeme without being consumed (the cursor stays on it). -/
theorem decimal_second_dot :
    tokenize "3.14.5" = some
      [⟨TokenType.FloatLiteral, "3.14".toList, 1⟩,
       ⟨TokenType.Unknown, ['.'], 1⟩,
       ⟨TokenType.IntegerLiteral, ['5'], 1⟩] ∧
    ∀ (input : List Char) (pos : Nat), pos < utf8Len input → input[pos]? = some '.' →
      getNextNumberPos input pos true = some pos := by
  constructor
  · rw [tokenize_eq_fuel]; rfl
  · intro input pos hp hg
    exact getNextNumberPos_second_dot input pos hp hg

/-- C3 witness: in `"3.14.5"` the number scan with the decimal flag set
stops at the second dot (position 4) without consuming it. -/
theorem decimal_second_dot_witness :
    getNextNumberPos "3.14.5".toList 4 true = some 4 :=
  decimal_second_dot.2 "3.14.5".toList 4 (by decide) (by decide)

set_option maxRecDepth 4000 in
/-- C4: every token reports the 1-based line of the source line it starts
on, and the line counter increases by exactly 1 per newline consumed:
`"agar\nphir"` gives `agar` on line 1 and `phir` on line 2; a consumed
newline bumps the counter by one, other whitespace leaves it unchanged, and
the final counter is the initial one plus the number of newlines. -/
theorem line_tracking :
    tokenize "agar\nphir" = some
      [⟨TokenType.Keyword, "agar".toList, 1⟩, ⟨TokenType.Keyword, "phir".toList, 2⟩] ∧
    (∀ (input : List Char) (pos line : Nat) (c : Char),
        pos < utf8Len input → input[pos]? = some c → is_whitespace c = true →
        tokenizeAux input pos line =
          tokenizeAux input (pos + 1) (if c = '\n' then line + 1 else line)) ∧
    (∀ (input : List Char), AsciiInput input →
      ∀ (ts : List Token) (p l : Nat), tokenizeAux input 0 1 = some (ts, p, l) →
        l = 1 + input.count '\n') := by
  refine ⟨?_, ?_, ?_⟩
  · rw [tokenize_eq_fuel]; rfl
  · intro input pos line c hp hg hws
    exact tokenizeAux_ws_step input pos line c hp hg hws
  · intro input hA ts p l h
    have h2 := (tokenizeAux_ascii_spec input hA 0 1 ts p l h).2
    simpa using h2

/-- C4 witness: consuming the newline of `"a\nb"` at position 1 increments
the line counter from 1 to 2. -/
theorem line_tracking_witness :
    tokenizeAux "a\nb".toList 1 1 = tokenizeAux "a\nb".toList 2 2 := by
  have h := line_tracking.2.1 "a\nb".toList 1 1 '\n' (by decide) (by decide) (by decide)
  simpa using h

set_option maxRecDepth 4000 in
/-- C5: keyword classification is a case-sensitive exact match on the
maximal-munch word: `"agarx"` scans to a single `Identifier("agarx")`; the
word scan consumes the whole contiguous alphanumeric run before the keyword
table is consulted, and the table holds `agar` but neither `agarx` nor
`Agar`. -/
theorem keyword_exactness :
    tokenize "agarx" = some [⟨TokenType.Identifier, "agarx".toList, 1⟩] ∧
    (∀ (input : List Char) (pos q : Nat),
        getNextWordPos input pos = some q →
        (∀ i, pos ≤ i → i < q → ∃ c, input[i]? = some c ∧ is_alphanum c = true) ∧
        (q < input.length → ∃ c, input[q]? = some c ∧ is_alphanum c = false)) ∧
    List.lookup "agar".toList keywords = some TokenType.Keyword ∧
    List.lookup "agarx".toList keywords = none ∧
    List.lookup "Agar".toList keywords = none := by
  refine ⟨?_, ?_, by decide, by decide, by decide⟩
  · rw [tokenize_eq_fuel]; rfl
  · intro input pos q h
    exact getNextWordPos_sound input pos q h

/-- C5 witness: in `"agarx"` the word scan from position 0 reaches
position 5, and every consumed character is alphanumeric — here the one at
index 4. -/
theorem keyword_exactness_witness :
    ∃ c, "agarx".toList[4]? = some c ∧ is_alphanum c = true := by
  have hW : getNextWordPos "agarx".toList 0 = some 5 := by
    rw [← getNextWordPosFuel_eq "agarx".toList 6 0 (by decide)]
    rfl
  exact (keyword_exactness.2.1 "agarx".toList 0 5 hW).1 4 (by omega) (by omega)

set_option maxRecDepth 40000 in
/-- C6: the end-to-end scenario — scanning the program
`hindsa x = 10; asharia y = 20.5; agar (x > y) { niklo; }` yields exactly
the twenty tokens whose kinds are, in order: Keyword, Identifier, Operator,
IntegerLiteral, Punctuator, Keyword, Identifier, Operator, FloatLiteral,
Punctuator, Keyword, Punctuator, Identifier, Operator, Identifier,
Punctuator, Punctuator, Keyword, Punctuator, Punctuator. -/
theorem end_to_end_kind_sequence :
    ∃ ts, tokenize "hindsa x = 10; asharia y = 20.5; agar (x > y) \x7b niklo; \x7d" = some ts ∧
      ts.map Token.token_type =
        [TokenType.Keyword, TokenType.Identifier, TokenType.Operator,
         TokenType.IntegerLiteral, TokenType.Punctuator,
         TokenType.Keyword, TokenType.Identifier, TokenType.Operator,
         TokenType.FloatLiteral, TokenType.Punctuator,
         TokenType.Keyword, TokenType.Punctuator, TokenType.Identifier,
         TokenType.Operator, TokenType.Identifier,
         TokenType.Punctuator, TokenType.Punctuator, TokenType.Keyword,
         TokenType.Punctuator, TokenType.Punctuator] := by
  refine ⟨[⟨TokenType.Keyword, "hindsa".toList, 1⟩,
           ⟨TokenType.Identifier, ['x'], 1⟩,
           ⟨TokenType.Operator, ['='], 1⟩,
           ⟨TokenType.IntegerLiteral, ['1', '0'], 1⟩,
           ⟨TokenType.Punctuator, [';'], 1⟩,
           ⟨TokenType.Keyword, "asharia".toList, 1⟩,
           ⟨TokenType.Identifier, ['y'], 1⟩,
           ⟨TokenType.Operator, ['='], 1⟩,
           ⟨TokenType.FloatLiteral, "20.5".toList, 1⟩,
           ⟨TokenType.Punctuator, [';'], 1⟩,
           ⟨TokenType.Keyword, "agar".toList, 1⟩,
           ⟨TokenType.Punctuator, ['('], 1⟩,
           ⟨TokenType.Identifier, ['x'], 1⟩,
           ⟨TokenType.Operator, ['>'], 1⟩,
           ⟨TokenType.Identifier, ['y'], 1⟩,
           ⟨TokenType.Punctuator, [')'], 1⟩,
           ⟨TokenType.Punctuator, ['\x7b'], 1⟩,
           ⟨TokenType.Keyword, "niklo".toList, 1⟩,
           ⟨TokenType.Punctuator, [';'], 1⟩,
           ⟨TokenType.Punctuator, ['\x7d'], 1⟩], ?_, rfl⟩
  rw [tokenize_eq_fuel]
  rfl

/-- C7: the cursor is monotonically non-decreasing and never exceeds the
input (byte) length — the word and number scans only move it forward and
keep it bounded, and a completed scan ends with the cursor exactly at the
input length; for ASCII input every character is accounted for exactly
once: the lexemes concatenated in source order are the input minus the
skipped whitespace. -/
theorem scan_cursor_invariants :
    (∀ (input : List Char) (pos q : Nat), getNextWordPos input pos = some q →
        pos ≤ q ∧ (pos ≤ utf8Len input → q ≤ utf8Len input)) ∧
    (∀ (input : List Char) (pos : Nat) (b : Bool) (q : Nat),
        getNextNumberPos input pos b = some q →
        pos ≤ q ∧ (pos ≤ utf8Len input → q ≤ utf8Len input)) ∧
    (∀ (input : List Char) (pos line : Nat) (ts : List Token) (p l : Nat),
        pos ≤ utf8Len input → tokenizeAux input pos line = some (ts, p, l) →
        pos ≤ p ∧ p = utf8Len input) ∧
    (∀ (input : List Char), AsciiInput input →
      ∀ (ts : List Token) (p l : Nat), tokenizeAux input 0 1 = some (ts, p, l) →
        (ts.map Token.value).flatten = input.filter (fun c => !is_whitespace c)) := by
  refine ⟨?_, ?_, ?_, ?_⟩
  · intro input pos q h
    exact ⟨getNextWordPos_ge input pos q h, fun hle => getNextWordPos_le input pos q hle h⟩
  · intro input pos b q h
    exact ⟨getNextNumberPos_ge input pos b q h, fun hle => getNextNumberPos_le input pos b q hle h⟩
  · intro input pos line ts p l hle h
    exact tokenizeAux_final_pos input pos line ts p l hle h
  · intro input hA ts p l h
    have := (tokenizeAux_ascii_spec input hA 0 1 ts p l h).1
    simpa using this

set_option maxRecDepth 4000 in
/-- C7 witness: scanning `"a b"` (3 bytes) from position 0 completes with
the cursor at the byte length 3. -/
theorem scan_cursor_invariants_witness :
    (0 : Nat) ≤ 3 ∧ (3 : Nat) = utf8Len "a b".toList := by
  have h : tokenizeAux "a b".toList 0 1 =
      some ([⟨TokenType.Identifier, ['a'], 1⟩, ⟨TokenType.Identifier, ['b'], 1⟩], 3, 1) := by
    rw [tokenizeAux_eq_fullFuel]
    rfl
  exact scan_cursor_invariants.2.2.1 "a b".toList 0 1 _ 3 1 (by decide) h

set_option maxRecDepth 4000 in
/-- C8 counterexample: the claim says the scanner never fails on any input,
but on the non-ASCII input `"¢"` (two UTF-8 bytes) the Rust scanner panics
on `chars().nth(1).unwrap()` after consuming the single character, modelled
as `none`. -/
theorem scan_panics_on_cent_sign : tokenize "¢" = none := by
  rw [tokenize_eq_fuel]; rfl

/-- C8 (amended): on ASCII input the scanner never fails, and a character
that is not whitespace, not an ASCII letter or digit, not an operator
character and not a punctuator character is consumed as exactly one
character and emitted as an `Unknown` token. -/
theorem unknown_catch_all :
    (∀ (input : List Char) (pos line : Nat) (c : Char),
        pos < utf8Len input → input[pos]? = some c →
        is_whitespace c = false → is_alpha c = false → is_digit c = false →
        isOperatorChar c = false → isPunctuatorChar c = false →
        tokenizeAux input pos line =
          (tokenizeAux input (pos + 1) line).map
            (fun r => (⟨TokenType.Unknown, [c], line⟩ :: r.1, r.2))) ∧
    (∀ (input : List Char), AsciiInput input → ∀ pos line, pos ≤ input.length →
        ∃ r, tokenizeAux input pos line = some r) := by
  constructor
  · intro input pos line c hp hg hws ha hd hop hpu
    exact tokenizeAux_unknown_step input pos line c hp hg hws ha hd hop hpu
  · intro input hA pos line hle
    obtain ⟨ts, l2, h⟩ := tokenizeAux_ascii_total input hA pos line hle
    exact ⟨(ts, input.length, l2), h⟩

/-- C8 witness: the unrecognized character `@` is consumed as exactly one
character and emitted as `Unknown`. -/
theorem unknown_catch_all_witness :
    tokenizeAux "@".toList 0 1 =
      (tokenizeAux "@".toList 1 1).map
        (fun r => (⟨TokenType.Unknown, ['@'], 1⟩ :: r.1, r.2)) :=
  unknown_catch_all.1 "@".toList 0 1 '@'
    (by decide) (by decide) (by decide) (by decide) (by decide) (by decide) (by decide)

/-- C9: every token returned by either tokenizer has a non-empty lexeme;
`Punctuator` and `Unknown` lexemes are exactly one character; `Operator`
lexemes have one or two characters in the main lexer, and exactly one
character in the `src/lexer.rs` variant. -/
theorem token_lexeme_shapes :
    (∀ (input : List Char) (pos line : Nat) (ts : List Token) (p l : Nat),
        tokenizeAux input pos line = some (ts, p, l) →
        ∀ t ∈ ts, t.value ≠ [] ∧
          ((t.token_type = TokenType.Punctuator ∨ t.token_type = TokenType.Unknown) →
            t.value.length = 1) ∧
          (t.token_type = TokenType.Operator → t.value.length = 1 ∨ t.value.length = 2)) ∧
    (∀ (input : List Char) (pos : Nat) (ts : List SrcLexer.Token),
        SrcLexer.tokenizeAux input pos = some ts →
        ∀ t ∈ ts, t.value ≠ [] ∧
          ((t.token_type = TokenType.Punctuator ∨ t.token_type = TokenType.Unknown) →
            t.value.length = 1) ∧
          (t.token_type = TokenType.Operator → t.value.length = 1)) := by
  constructor
  · intro input pos line ts p l h
    exact tokenizeAux_values input pos line ts p l h
  · intro input pos ts h
    exact srcTokenizeAux_values input pos ts h

set_option maxRecDepth 4000 in
/-- C9 witness: the punctuator token emitted for `(` in `"(;"` has a
one-character non-empty lexeme. -/
theorem token_lexeme_shapes_witness :
    (⟨TokenType.Punctuator, ['('], 1⟩ : Token).value ≠ [] ∧
      (((⟨TokenType.Punctuator, ['('], 1⟩ : Token).token_type = TokenType.Punctuator ∨
          (⟨TokenType.Punctuator, ['('], 1⟩ : Token).token_type = TokenType.Unknown) →
        (⟨TokenType.Punctuator, ['('], 1⟩ : Token).value.length = 1) ∧
      ((⟨TokenType.Punctuator, ['('], 1⟩ : Token).token_type = TokenType.Operator →
        (⟨TokenType.Punctuator, ['('], 1⟩ : Token).value.length = 1 ∨
          (⟨TokenType.Punctuator, ['('], 1⟩ : Token).value.length = 2) := by
  have h : tokenizeAux "(;".toList 0 1 =
      some ([⟨TokenType.Punctuator, ['('], 1⟩, ⟨TokenType.Punctuator, [';'], 1⟩], 2, 1) := by
    rw [tokenizeAux_eq_fullFuel]
    rfl
  exact token_lexeme_shapes.1 "(;".toList 0 1 _ 2 1 h ⟨TokenType.Punctuator, ['('], 1⟩ (by simp)

/-- C10: `tokenize` consumes the analyzer's cursor and never resets it:
after a completed run on an ASCII input the position equals the input
length, and any subsequent call to `tokenize` on the same analyzer returns
the empty token sequence. -/
theorem tokenize_consumes_cursor (src : List Char) (hA : AsciiInput src)
    (ts : List Token) (a2 : LexicalAnalyzer)
    (h : (LexicalAnalyzer.new src).tokenize = some (ts, a2)) :
    a2.position = src.length ∧ a2.tokenize = some ([], a2) := by
  unfold LexicalAnalyzer.tokenize LexicalAnalyzer.new at h
  rw [Option.map_eq_some'] at h
  obtain ⟨⟨ts0, p, l⟩, hrec, heq⟩ := h
  simp only [Prod.mk.injEq] at heq
  obtain ⟨rfl, rfl⟩ := heq
  obtain ⟨hp1, hp2⟩ := tokenizeAux_final_pos src 0 1 ts0 p l (by omega) hrec
  have hLen := utf8Len_ascii hA
  constructor
  · simp only [hp2, hLen]
  · unfold LexicalAnalyzer.tokenize
    have hbase : tokenizeAux src p l = some ([], p, l) := by
      rw [tokenizeAux_eq_fullFuel, tokenizeFuel, if_neg (by omega)]
    simp [hbase]

set_option maxRecDepth 4000 in
/-- C10 witness: after scanning `"a"` the analyzer sits at position 1 (the
input length) and a second `tokenize` call returns no tokens. -/
theorem tokenize_consumes_cursor_witness :
    (⟨"a".toList, 1, 1⟩ : LexicalAnalyzer).position = "a".toList.length ∧
      (⟨"a".toList, 1, 1⟩ : LexicalAnalyzer).tokenize =
        some ([], (⟨"a".toList, 1, 1⟩ : LexicalAnalyzer)) := by
  have h : (LexicalAnalyzer.new "a".toList).tokenize =
      some ([⟨TokenType.Identifier, ['a'], 1⟩], ⟨"a".toList, 1, 1⟩) := by
    unfold LexicalAnalyzer.tokenize LexicalAnalyzer.new
    rw [tokenizeAux_eq_fullFuel]
    rfl
  exact tokenize_consumes_cursor "a".toList (by unfold AsciiInput; decide) _ _ h
